import Mathlib

/-!
Verification development for the Chapters repository (src/libchapters.py).

The Python source is shallowly embedded: byte streams become lists of
natural numbers with an explicit read position, Python exceptions become
an explicit error type threaded through `Except`, machine integers read
with `struct.unpack` become `Nat`/`Int` with explicit reductions modulo
powers of two, and the `while` loops of the chunk walker are modelled by
fuel-indexed structural recursion (the fuel used at the top level is large
enough for every terminating run of the source loop).
-/

set_option maxRecDepth 100000

namespace Chapters

/-- Model of the Python exceptions the embedded code can raise.
`valueError` models `ValueError` (bad RIFF magic, `int()` parse failure,
negative read size), `structError` models `struct.error` from
`struct.unpack` on a short buffer, `osError` models `OSError` from seeking
to a negative offset, `keyError` models a `KeyError` on a dict lookup,
`unicodeError` models `UnicodeDecodeError` from `bytes.decode("utf-8")`,
and `timeout` is the fuel-exhaustion marker of the loop model (it is never
produced on the inputs considered by the theorems below). -/
inductive PyError where
  | valueError : PyError
  | structError : PyError
  | osError : PyError
  | keyError : String → PyError
  | unicodeError : PyError
  | timeout : PyError
deriving Repr, DecidableEq

/-- A readable binary file: its bytes and the current read position,
modelling the `fid` handle of `__read_chapters_from_wav_file`. -/
structure ByteStream where
  data : List Nat
  pos : Nat
deriving Repr, DecidableEq

/-- Model of `fid.read(n)` for `n >= 0`: returns at most `n` bytes starting
at the current position (fewer at end of file) and advances the position by
the number of bytes actually returned. -/
def pyRead (s : ByteStream) (n : Nat) : List Nat × ByteStream :=
  let chunk := (s.data.drop s.pos).take n
  (chunk, ⟨s.data, s.pos + chunk.length⟩)

/-- Model of `fid.read()` / `fid.read(-1)`: reads to end of file. -/
def pyReadAll (s : ByteStream) : List Nat × ByteStream :=
  ((s.data.drop s.pos), ⟨s.data, s.pos + (s.data.drop s.pos).length⟩)

/-- Model of `fid.read(n)` with a possibly negative size, as in the `labl`
branch where the size comes from file data: a size below `-1` raises
`ValueError` in `io.BufferedReader.read`, `-1` reads to end of file. -/
def pyReadI (s : ByteStream) (n : Int) : Except PyError (List Nat × ByteStream) :=
  if n < -1 then .error .valueError
  else if n = -1 then .ok (pyReadAll s)
  else .ok (pyRead s n.toNat)

/-- Model of `fid.seek(k, 1)` (relative seek): seeking to a negative
absolute offset raises `OSError`; seeking past end of file is allowed. -/
def pySeek (s : ByteStream) (k : Int) : Except PyError ByteStream :=
  let target : Int := (s.pos : Int) + k
  if target < 0 then .error .osError else .ok ⟨s.data, target.toNat⟩

/-- Model of `fid.tell()`. -/
def pyTell (s : ByteStream) : Nat := s.pos

/-- Little-endian value of a byte list, as read by `struct.unpack`. -/
def leNat (bs : List Nat) : Nat := bs.foldr (fun b acc => b + 256 * acc) 0

/-- The four little-endian bytes of `n` (modulo `2 ^ 32`), as produced by
`struct.pack("<I", n)`; used to build concrete test streams. -/
def le4 (n : Nat) : List Nat :=
  [n % 256, n / 256 % 256, n / 256 ^ 2 % 256, n / 256 ^ 3 % 256]

/-- Reinterpret a 32-bit unsigned value as the signed value `struct.unpack`
returns for format `<i`. -/
def toSigned32 (u : Nat) : Int :=
  if u < 2 ^ 31 then (u : Int) else (u : Int) - 2 ^ 32

/-- The bytes of an ASCII string, used for chunk ids such as the literal
`b"cue "` of the source. -/
def strBytes (s : String) : List Nat := s.toList.map Char.toNat

theorem le4_length (n : Nat) : (le4 n).length = 4 := rfl

theorem leNat_le4 (n : Nat) : leNat (le4 n) = n % 2 ^ 32 := by
  simp only [le4, leNat, List.foldr]
  omega

theorem toSigned32_of_lt (u : Nat) (h : u < 2 ^ 31) : toSigned32 u = (u : Int) := by
  simp only [toSigned32, if_pos h]

theorem leNat_le4_signed (n : Nat) (h : n < 2 ^ 31) :
    toSigned32 (leNat (le4 n)) = (n : Int) := by
  rw [leNat_le4, Nat.mod_eq_of_lt (by omega)]
  exact toSigned32_of_lt n h

theorem pyRead_exact (data : List Nat) (pos n : Nat) (xs rest : List Nat)
    (hx : xs.length = n) (h : data.drop pos = xs ++ rest) :
    pyRead ⟨data, pos⟩ n = (xs, ⟨data, pos + n⟩) := by
  simp only [pyRead, h]
  rw [List.take_append_of_le_length (by omega), List.take_of_length_le (by omega)]
  simp [hx]

theorem pyRead_eof (data : List Nat) (pos n : Nat) (h : data.length ≤ pos) :
    pyRead ⟨data, pos⟩ n = ([], ⟨data, pos⟩) := by
  simp [pyRead, List.drop_eq_nil_of_le h]

/-! ### Python decimal strings

Models of Python `str()` on integers and `int()` on strings, used by
`__get_tags` (`str(metadata.episode_number)`),
`__get_episode_number_from_id3_tags` (`int(trck_tag.text[0])`) and
`__guess_podcast_info_from_filename` (`int(match_info.group(1))`). -/

/-- Little-endian decimal digits of `n`, computed with explicit fuel so the
definition reduces in the kernel; `natDigitsRevAux n n` is the digit list. -/
def natDigitsRevAux : Nat → Nat → List Nat
  | 0, _ => []
  | fuel + 1, n => if n = 0 then [] else n % 10 :: natDigitsRevAux fuel (n / 10)

/-- The character of a decimal digit. -/
def digitChar (d : Nat) : Char := Char.ofNat (48 + d)

/-- Model of Python `str()` on a non-negative integer. -/
def natToStr (n : Nat) : String :=
  if n = 0 then String.mk ['0']
  else String.mk (((natDigitsRevAux n n).reverse).map digitChar)

/-- Model of Python `str()` on an integer. -/
def intToStr (n : Int) : String :=
  if n < 0 then String.mk ('-' :: (natToStr n.natAbs).toList) else natToStr n.toNat

/-- The whitespace characters stripped by Python `int()`. -/
def isPyWs (c : Char) : Bool :=
  c = ' ' || c = '\t' || c = '\n' || c = '\x0d' || c = Char.ofNat 11 || c = Char.ofNat 12

/-- Numeric value of a decimal digit character. -/
def digitVal (c : Char) : Nat := c.toNat - 48

/-- Digits of a Python integer literal after the first digit: plain digits
with single underscores allowed between digits, folding up the value. -/
def parseDigitsRest (acc : Nat) : List Char → Option Nat
  | [] => some acc
  | c :: rest =>
    if c = '_' then
      match rest with
      | [] => none
      | c2 :: rest2 =>
        if c2.isDigit then parseDigitsRest (acc * 10 + digitVal c2) rest2 else none
    else if c.isDigit then parseDigitsRest (acc * 10 + digitVal c) rest else none

/-- Digit run of a Python integer literal: at least one digit required. -/
def parseDigits : List Char → Option Nat
  | [] => none
  | c :: rest => if c.isDigit then parseDigitsRest (digitVal c) rest else none

/-- Sign handling of Python `int()` after whitespace stripping. -/
def pyIntSigned : List Char → Option Int
  | [] => none
  | c :: rest =>
    if c = '-' then (parseDigits rest).map (fun n => -(n : Int))
    else if c = '+' then (parseDigits rest).map (fun n => (n : Int))
    else (parseDigits (c :: rest)).map (fun n => (n : Int))

/-- Model of Python `int()` on a string: strip surrounding whitespace, an
optional sign, then a digit run (with underscore separators); anything
else raises `ValueError`, modelled by `none`. -/
def pyIntParse (s : String) : Option Int :=
  pyIntSigned (((s.toList.dropWhile isPyWs).reverse.dropWhile isPyWs).reverse)

theorem parseDigitsRest_cons (acc : Nat) (c : Char) (rest : List Char) :
    parseDigitsRest acc (c :: rest) =
      if c = '_' then
        (match rest with
         | [] => none
         | c2 :: rest2 =>
           if c2.isDigit then parseDigitsRest (acc * 10 + digitVal c2) rest2 else none)
      else if c.isDigit then parseDigitsRest (acc * 10 + digitVal c) rest else none := by
  rw [parseDigitsRest.eq_def]

theorem parseDigits_cons (c : Char) (rest : List Char) :
    parseDigits (c :: rest)
      = if c.isDigit then parseDigitsRest (digitVal c) rest else none := by
  rw [parseDigits.eq_def]

theorem pyIntSigned_cons (c : Char) (rest : List Char) :
    pyIntSigned (c :: rest) =
      if c = '-' then (parseDigits rest).map (fun n => -(n : Int))
      else if c = '+' then (parseDigits rest).map (fun n => (n : Int))
      else (parseDigits (c :: rest)).map (fun n => (n : Int)) := by
  rw [pyIntSigned.eq_def]

theorem natDigitsRevAux_val (fuel : Nat) :
    ∀ n : Nat, n ≤ fuel →
      (natDigitsRevAux fuel n).foldr (fun d acc => d + 10 * acc) 0 = n := by
  induction fuel with
  | zero => intro n h; interval_cases n; rfl
  | succ fuel ih =>
    intro n h
    by_cases h0 : n = 0
    · simp [natDigitsRevAux, h0]
    · have hlt : n / 10 ≤ fuel := by omega
      simp only [natDigitsRevAux, if_neg h0, List.foldr_cons, ih (n / 10) hlt]
      omega

theorem natDigitsRevAux_lt_ten (fuel : Nat) :
    ∀ n : Nat, ∀ d ∈ natDigitsRevAux fuel n, d < 10 := by
  induction fuel with
  | zero => intro n d hd; simp [natDigitsRevAux] at hd
  | succ fuel ih =>
    intro n d hd
    by_cases h0 : n = 0
    · simp [natDigitsRevAux, h0] at hd
    · simp only [natDigitsRevAux, if_neg h0, List.mem_cons] at hd
      rcases hd with h | h
      · omega
      · exact ih _ d h

theorem digitChar_isDigit (d : Nat) (h : d < 10) : (digitChar d).isDigit = true := by
  interval_cases d <;> decide

theorem digitChar_ne_underscore (d : Nat) (h : d < 10) : digitChar d ≠ '_' := by
  interval_cases d <;> decide

theorem digitChar_not_ws (d : Nat) (h : d < 10) : isPyWs (digitChar d) = false := by
  interval_cases d <;> decide

theorem digitVal_digitChar (d : Nat) (h : d < 10) : digitVal (digitChar d) = d := by
  interval_cases d <;> decide

theorem parseDigitsRest_digits (ds : List Nat) (hds : ∀ d ∈ ds, d < 10) :
    ∀ acc : Nat, parseDigitsRest acc (ds.map digitChar)
      = some (ds.foldl (fun a d => a * 10 + d) acc) := by
  induction ds with
  | nil => intro acc; rfl
  | cons d rest ih =>
    intro acc
    have hd : d < 10 := hds d (List.mem_cons_self d rest)
    have hrest : ∀ x ∈ rest, x < 10 := fun x hx => hds x (List.mem_cons_of_mem d hx)
    have hne : digitChar d ≠ '_' := digitChar_ne_underscore d hd
    have hstep : parseDigitsRest acc (digitChar d :: List.map digitChar rest)
        = parseDigitsRest (acc * 10 + d) (List.map digitChar rest) := by
      rw [parseDigitsRest_cons, if_neg hne, digitChar_isDigit d hd, if_pos rfl,
        digitVal_digitChar d hd]
    rw [List.map_cons, hstep, ih hrest (acc * 10 + d), List.foldl_cons]

theorem parseDigits_digits (ds : List Nat) (hds : ∀ d ∈ ds, d < 10) (hne : ds ≠ []) :
    parseDigits (ds.map digitChar) = some (ds.foldl (fun a d => a * 10 + d) 0) := by
  match ds, hne with
  | d :: rest, _ =>
    have hd : d < 10 := hds d (List.mem_cons_self d rest)
    have hrest : ∀ x ∈ rest, x < 10 := fun x hx => hds x (List.mem_cons_of_mem d hx)
    have hstep : parseDigits (digitChar d :: List.map digitChar rest)
        = parseDigitsRest d (List.map digitChar rest) := by
      rw [parseDigits_cons, digitChar_isDigit d hd, if_pos rfl, digitVal_digitChar d hd]
    rw [List.map_cons, hstep, parseDigitsRest_digits rest hrest d, List.foldl_cons,
      Nat.zero_mul, Nat.zero_add]

theorem foldl_digits_reverse (ds : List Nat) :
    ds.reverse.foldl (fun a d => a * 10 + d) 0 = ds.foldr (fun d acc => d + 10 * acc) 0 := by
  rw [List.foldl_reverse]
  induction ds with
  | nil => rfl
  | cons d rest ih => simp only [List.foldr_cons, ih]; omega

theorem parseDigits_natToStr (n : Nat) : parseDigits (natToStr n).toList = some n := by
  by_cases h0 : n = 0
  · subst h0; decide
  · have hval := natDigitsRevAux_val n n (Nat.le_refl n)
    have hdig := natDigitsRevAux_lt_ten n n
    have hne : natDigitsRevAux n n ≠ [] := by
      intro hnil
      rw [hnil] at hval
      exact h0 hval.symm
    have hne2 : (natDigitsRevAux n n).reverse ≠ [] := by
      simpa using hne
    have hdig2 : ∀ d ∈ (natDigitsRevAux n n).reverse, d < 10 := by
      intro d hd; exact hdig d (List.mem_reverse.mp hd)
    simp only [natToStr, if_neg h0, String.toList]
    rw [parseDigits_digits _ hdig2 hne2, foldl_digits_reverse, hval]

theorem dropWhile_eq_self_of_all {α : Type} (p : α → Bool) (l : List α)
    (h : ∀ c ∈ l, p c = false) : l.dropWhile p = l := by
  cases l with
  | nil => rfl
  | cons c rest => simp [List.dropWhile_cons, h c (List.mem_cons_self c rest)]

theorem natToStr_chars (n : Nat) :
    ∀ c ∈ (natToStr n).toList, c.isDigit = true ∧ isPyWs c = false ∧ c ≠ '-' ∧ c ≠ '+' := by
  intro c hc
  by_cases h0 : n = 0
  · subst h0
    have hc0 : c = '0' := by
      simp only [natToStr, if_pos rfl, String.toList] at hc
      simpa using hc
    subst hc0
    exact ⟨by decide, by decide, by decide, by decide⟩
  · simp only [natToStr, if_neg h0, String.toList, List.mem_map] at hc
    obtain ⟨d, hd, hdc⟩ := hc
    have hd10 : d < 10 := natDigitsRevAux_lt_ten n n d (List.mem_reverse.mp hd)
    subst hdc
    refine ⟨digitChar_isDigit d hd10, digitChar_not_ws d hd10, ?_, ?_⟩
    · intro h; have := digitVal_digitChar d hd10; rw [h] at this; interval_cases d <;> simp_all [digitChar]
    · intro h; have := digitVal_digitChar d hd10; rw [h] at this; interval_cases d <;> simp_all [digitChar]

theorem pyIntParse_natToStr (n : Nat) : pyIntParse (natToStr n) = some (n : Int) := by
  have hchars := natToStr_chars n
  have hnws : ∀ c ∈ (natToStr n).toList, isPyWs c = false := fun c hc => (hchars c hc).2.1
  have hnil : (natToStr n).toList ≠ [] := by
    by_cases h0 : n = 0
    · subst h0; decide
    · simp only [natToStr, if_neg h0, String.toList]
      intro h
      have : natDigitsRevAux n n = [] := by simpa using h
      have hval := natDigitsRevAux_val n n (Nat.le_refl n)
      rw [this] at hval
      exact h0 hval.symm
  have hrev : ∀ c ∈ (natToStr n).toList.reverse, isPyWs c = false := by
    intro c hc; exact hnws c (List.mem_reverse.mp hc)
  unfold pyIntParse
  rw [dropWhile_eq_self_of_all isPyWs _ hnws, dropWhile_eq_self_of_all isPyWs _ hrev,
    List.reverse_reverse]
  have hparse : parseDigits (natToStr n).toList = some n := parseDigits_natToStr n
  match hm : (natToStr n).toList, hnil with
  | c :: rest, _ =>
    have hc : c ∈ (natToStr n).toList := by rw [hm]; exact List.mem_cons_self c rest
    have hprops := hchars c hc
    rw [hm] at hparse
    rw [pyIntSigned_cons, if_neg hprops.2.2.1, if_neg hprops.2.2.2, hparse]
    rfl

theorem pyIntParse_intToStr (n : Int) : pyIntParse (intToStr n) = some n := by
  by_cases hneg : n < 0
  · simp only [intToStr, if_pos hneg]
    have hchars := natToStr_chars n.natAbs
    have hnws : ∀ c ∈ ('-' :: (natToStr n.natAbs).toList), isPyWs c = false := by
      intro c hc
      rcases List.mem_cons.mp hc with h | h
      · subst h; decide
      · exact (hchars c h).2.1
    have hrev : ∀ c ∈ ('-' :: (natToStr n.natAbs).toList).reverse, isPyWs c = false := by
      intro c hc; exact hnws c (List.mem_reverse.mp hc)
    have htl : (String.mk ('-' :: (natToStr n.natAbs).toList)).toList
        = '-' :: (natToStr n.natAbs).toList := rfl
    unfold pyIntParse
    rw [htl, dropWhile_eq_self_of_all isPyWs _ hnws, dropWhile_eq_self_of_all isPyWs _ hrev,
      List.reverse_reverse, pyIntSigned_cons, if_pos rfl, parseDigits_natToStr]
    have : -((n.natAbs : Nat) : Int) = n := by omega
    exact congrArg some this
  · simp only [intToStr, if_neg hneg]
    rw [pyIntParse_natToStr]
    have : ((n.toNat : Nat) : Int) = n := by omega
    exact congrArg some this

theorem natToStr_injective (a b : Nat) (h : natToStr a = natToStr b) : a = b := by
  have ha := parseDigits_natToStr a
  rw [h, parseDigits_natToStr b] at ha
  exact (Option.some.injEq _ _).mp ha.symm

/-! ### UTF-8 decoding and byte-string helpers -/

/-- Decode one UTF-8 sequence whose lead byte is `b` and whose following
bytes start `rest`; returns the code point and the unconsumed bytes, or
`none` for invalid input (stray or missing continuation bytes, overlong
encodings, surrogates, values beyond U+10FFFF). -/
def utf8Lead (b : Nat) (rest : List Nat) : Option (Nat × List Nat) :=
  if b < 0x80 then some (b, rest)
  else if b < 0xC2 then none
  else if b < 0xE0 then
    match rest with
    | [] => none
    | b2 :: rest2 =>
      if 0x80 ≤ b2 ∧ b2 < 0xC0 then some ((b - 0xC0) * 64 + (b2 - 0x80), rest2)
      else none
  else if b < 0xF0 then
    match rest with
    | b2 :: b3 :: rest3 =>
      if (0x80 ≤ b2 ∧ b2 < 0xC0) ∧ (0x80 ≤ b3 ∧ b3 < 0xC0) then
        let cp := (b - 0xE0) * 4096 + (b2 - 0x80) * 64 + (b3 - 0x80)
        if 0x800 ≤ cp ∧ ¬ (0xD800 ≤ cp ∧ cp ≤ 0xDFFF) then some (cp, rest3) else none
      else none
    | _ => none
  else if b < 0xF5 then
    match rest with
    | b2 :: b3 :: b4 :: rest4 =>
      if (0x80 ≤ b2 ∧ b2 < 0xC0) ∧ (0x80 ≤ b3 ∧ b3 < 0xC0) ∧ (0x80 ≤ b4 ∧ b4 < 0xC0) then
        let cp := (b - 0xF0) * 262144 + (b2 - 0x80) * 4096 + (b3 - 0x80) * 64 + (b4 - 0x80)
        if 0x10000 ≤ cp ∧ cp ≤ 0x10FFFF then some (cp, rest4) else none
      else none
    | _ => none
  else none

/-- Fuel-indexed decoding loop; one unit of fuel per code point, and each
code point consumes at least the lead byte, so fuel equal to the length of
the input always suffices. -/
def utf8DecodeAux : Nat → List Nat → Option (List Nat)
  | _, [] => some []
  | 0, _ :: _ => none
  | fuel + 1, b :: rest =>
    match utf8Lead b rest with
    | some (cp, rest2) => (utf8DecodeAux fuel rest2).map (fun cs => cp :: cs)
    | none => none

/-- Decoder for UTF-8 byte sequences, modelling `bytes.decode("utf-8")` in
the `labl` branch: returns the code points, or `none` for invalid input,
which raises `UnicodeDecodeError` in Python. -/
def utf8Decode (bs : List Nat) : Option (List Nat) := utf8DecodeAux bs.length bs

/-- Decoded string of a UTF-8 byte list (code points to characters). -/
def utf8DecodeStr (bs : List Nat) : Option String :=
  (utf8Decode bs).map (fun cps => String.mk (cps.map Char.ofNat))

theorem utf8Lead_ascii (b : Nat) (rest : List Nat) (h : b < 128) :
    utf8Lead b rest = some (b, rest) := by
  unfold utf8Lead
  rw [if_pos (by omega : b < 0x80)]

theorem utf8DecodeAux_ascii (bs : List Nat) :
    ∀ fuel : Nat, bs.length ≤ fuel → (∀ b ∈ bs, b < 128) →
      utf8DecodeAux fuel bs = some bs := by
  induction bs with
  | nil => intro fuel _ _; cases fuel <;> rfl
  | cons b rest ih =>
    intro fuel hfuel h
    have hb : b < 128 := h b (List.mem_cons_self b rest)
    match fuel, hfuel with
    | fuel + 1, hf =>
      have hrest := ih fuel (by simpa using hf) (fun x hx => h x (List.mem_cons_of_mem b hx))
      simp only [utf8DecodeAux, utf8Lead_ascii b rest hb, hrest]
      rfl

theorem utf8Decode_ascii (bs : List Nat) (h : ∀ b ∈ bs, b < 128) :
    utf8Decode bs = some bs :=
  utf8DecodeAux_ascii bs bs.length (Nat.le_refl _) h

/-- Model of `bytes.rstrip(b"\x00")`: remove trailing zero bytes. -/
def rstripNulls (bs : List Nat) : List Nat :=
  ((bs.reverse).dropWhile (fun b => b = 0)).reverse

theorem rstripNulls_append_zero (l : List Nat) :
    rstripNulls (l ++ [0]) = rstripNulls l := by
  simp [rstripNulls, List.dropWhile_cons]

theorem rstripNulls_of_ne_zero (l : List Nat) (h : ∀ b ∈ l, b ≠ 0) :
    rstripNulls l = l := by
  unfold rstripNulls
  rw [dropWhile_eq_self_of_all _ _ (fun b hb => by
    simpa using h b (List.mem_reverse.mp hb)), List.reverse_reverse]

/-! ### Data model: Chapter and MetaData

The source's `Chapter` class and `MetaData` named tuple. Python is
dynamically typed: an ID3-decoded chapter name is the `text` attribute of a
mutagen text frame, which is a list of strings, while the WAV extractor and
the UI produce plain strings; `PyStr` models that union of value shapes,
with equality the structural equality the spec adopts for Chapter. -/

/-- A Python value that is either a string or a list of strings. -/
inductive PyStr where
  | str : String → PyStr
  | strList : List String → PyStr
deriving Repr, DecidableEq

/-- The `Chapter` record of the source: start and end in milliseconds plus
a name. Python's `end` is reserved in Lean, so that field is named `stop`. -/
structure Chapter where
  start : Int
  stop : Int
  name : PyStr
deriving Repr, DecidableEq

/-- The `MetaData` named tuple of the source (all fields optional,
defaulting to `None`). -/
structure MetaData where
  podcast_title : Option String := none
  episode_title : Option String := none
  episode_number : Option Int := none
  chapters : Option (List Chapter) := none
deriving Repr, DecidableEq

/-! ### The WAV chunk walker (`__read_chapters_from_wav_file`)

The walker reads the `RIFF` header, then loops while `fid.tell() < fsize`
dispatching on 4-byte chunk ids; `cue ` points and `labl` texts accumulate
in an insertion-ordered dictionary keyed by cue id. The sample rate and
total frame count that the source obtains from `wave.open` on the same
file are passed in as parameters `rate` and `nframes`. Timestamps pass
through `str()`/`int()` in the source; that round trip is exact, so the
dictionary stores the integer directly (`none` models the default `""`,
on which the later `int()` call raises `ValueError`). -/

/-- One entry of `markersdict`. -/
structure Marker where
  timestamp : Option Int
  label : String
deriving Repr, DecidableEq

/-- The insertion-ordered `markersdict`, keyed by cue id. -/
abbrev Markers := List (Int × Marker)

/-- Number of binary digits of `n`, with explicit fuel so the kernel can
evaluate it; `256` halvings cover every quantity this model meets
(all are below `2 ^ 256`). -/
def bitlenAux : Nat → Nat → Nat
  | 0, _ => 0
  | fuel + 1, n => if n = 0 then 0 else bitlenAux fuel (n / 2) + 1

def bitlen (n : Nat) : Nat := bitlenAux 256 n

/-- Round the positive rational `a / b` to a 53-bit mantissa with IEEE-754
round-to-nearest, ties to even — the rounding CPython applies both to
`int / int` true division and to float multiplication.  Returns the
mantissa `m` (`2 ^ 52 ≤ m < 2 ^ 53`) and binary exponent `e`, so the
rounded value is `m * 2 ^ e`.  The quotient is pre-scaled by `2 ^ 85`,
which keeps at least 54 significant bits whenever `1 ≤ a` and
`1 ≤ b < 2 ^ 32` — the range in which this model is used; `low` and `rem`
carry the guard and sticky information for the tie decision. -/
def roundRat53 (a b : Nat) : Nat × Int :=
  let q0 := a * 2 ^ 85 / b
  let rem := a * 2 ^ 85 % b
  let k := bitlen q0 - 53
  let m0 := q0 / 2 ^ k
  let low := q0 % 2 ^ k
  let half := 2 ^ (k - 1)
  let m1 := if half < low ∨ (low = half ∧ (rem ≠ 0 ∨ m0 % 2 = 1)) then m0 + 1 else m0
  if m1 = 2 ^ 53 then (2 ^ 52, (k : Int) + 1 - 85) else (m1, (k : Int) - 85)

/-- `int((p / r) * 1000)` for a nonnegative integer sample count `p`,
computed as CPython does: one correctly rounded double division (`p` and
`r` below `2 ^ 32` convert to float exactly), one correctly rounded
multiplication by the exact float `1000.0`, then `int(...)`, which on a
nonnegative value is the floor.  Both intermediate doubles are normal for
`1 ≤ p < 2 ^ 31` and `1 ≤ r < 2 ^ 32`, so the two `roundRat53` steps are
exactly the IEEE-754 operations there. -/
def floatMillisPos (r p : Nat) : Nat :=
  if p = 0 then 0
  else
    let d1 := roundRat53 p r
    let d2 := roundRat53 (d1.1 * 1000) 1
    let e : Int := d2.2 + d1.2
    if 0 ≤ e then d2.1 * 2 ^ e.toNat else d2.1 / 2 ^ (-e).toNat

/-- Model of `__samples_to_millis`: `int((samples / framerate) * 1000)` in
IEEE-754 double precision.  Negative sample counts reduce to the positive
case because round-to-nearest is sign-symmetric and `int` truncates toward
zero.  Faithful to the source for `0 < rate < 2 ^ 32` and
`|samples| < 2 ^ 31` (the ranges the wave header and `<i` cue fields can
produce); at `rate = 0` the source raises `ZeroDivisionError` while this
total function returns `0`, so every theorem whose conclusion depends on
a millisecond value assumes `0 < rate`. -/
def samplesToMillis (rate : Nat) (samples : Int) : Int :=
  if samples < 0 then -(floatMillisPos rate samples.natAbs : Int)
  else (floatMillisPos rate samples.toNat : Int)

/-- Assignment `markersdict[id]["timestamp"] = str(millis)`: update the
entry if the id exists, else append a fresh defaulted entry (insertion
order of a Python dict). -/
def setTimestamp : Markers → Int → Int → Markers
  | [], id, t => [(id, ⟨some t, ""⟩)]
  | (k, e) :: rest, id, t =>
    if k = id then (k, { e with timestamp := some t }) :: rest
    else (k, e) :: setTimestamp rest id t

/-- Assignment `markersdict[id]["label"] = text`. -/
def setLabel : Markers → Int → String → Markers
  | [], id, lb => [(id, ⟨none, lb⟩)]
  | (k, e) :: rest, id, lb =>
    if k = id then (k, { e with label := lb }) :: rest
    else (k, e) :: setLabel rest id lb

/-- The chunk ids recognised by the walker. -/
def bCue : List Nat := strBytes (r"cue ")

def bLIST : List Nat := strBytes (r"LIST")

def bLabl : List Nat := strBytes (r"labl")

def bRIFF : List Nat := strBytes (r"RIFF")

def bWAVE : List Nat := strBytes (r"WAVE")

/-- The per-point loop of the `cue ` branch: `for _ in range(numcue)` reads
24 bytes per point and records `(cue_id, position)` (`struct.unpack`
raises on a short read). -/
def readCues (rate : Nat) : Nat → ByteStream → Markers → Except PyError (ByteStream × Markers)
  | 0, s, m => .ok (s, m)
  | n + 1, s, m =>
    let r := pyRead s 24
    if r.1.length = 24 then
      readCues rate n r.2
        (setTimestamp m (toSigned32 (leNat (r.1.take 4)))
          (samplesToMillis rate (toSigned32 (leNat ((r.1.drop 4).take 4)))))
    else .error .structError

/-- The `cue ` branch: read 8 bytes, take the second `<i` field as the
point count, then read the points. -/
def cueBranch (rate : Nat) (s : ByteStream) (m : Markers) :
    Except PyError (ByteStream × Markers) :=
  let r := pyRead s 8
  if r.1.length = 8 then
    readCues rate (toSigned32 (leNat (r.1.drop 4))).toNat r.2 m
  else .error .structError

/-- The `labl` branch: read `(size, cue_id)`, round the size up to even,
read `size - 4` label bytes, strip trailing zero bytes and decode UTF-8. -/
def lablBranch (s : ByteStream) (m : Markers) : Except PyError (ByteStream × Markers) :=
  let r := pyRead s 8
  if r.1.length = 8 then
    let size0 := toSigned32 (leNat (r.1.take 4))
    let cueId := toSigned32 (leNat (r.1.drop 4))
    let size := size0 + Int.emod size0 2
    match pyReadI r.2 (size - 4) with
    | .ok (lab, s2) =>
      match utf8DecodeStr (rstripNulls lab) with
      | some lb => .ok (s2, setLabel m cueId lb)
      | none => .error .unicodeError
    | .error e => .error e
  else .error .structError

/-- Model of `__skip_unknown_chunk`: read a signed 4-byte size, add one if
odd (`bool(size & 1)`), and seek forward by it. -/
def skipUnknownChunk (s : ByteStream) : Except PyError ByteStream :=
  let r := pyRead s 4
  if r.1.length = 4 then
    let size0 := toSigned32 (leNat r.1)
    let size := if Int.emod size0 2 = 1 then size0 + 1 else size0
    pySeek r.2 size
  else .error .structError

/-- Model of `__read_riff_chunk`: check the `RIFF` magic, read the declared
size (`fsize` is that size plus 8) and check the `WAVE` form type. -/
def readRiffChunk (s : ByteStream) : Except PyError (Nat × ByteStream) :=
  let r := pyRead s 4
  if r.1 = bRIFF then
    let r2 := pyRead r.2 4
    if r2.1.length = 4 then
      let r3 := pyRead r2.2 4
      if r3.1 = bWAVE then .ok (leNat r2.1 + 8, r3.2)
      else .error .valueError
    else .error .structError
  else .error .valueError

/-- The `while fid.tell() < fsize` chunk loop, with explicit fuel (each
iteration consumes one unit; the top-level call supplies more fuel than
any terminating run of the source loop can use). -/
def walkLoop (rate fsize : Nat) : Nat → ByteStream → Markers → Except PyError (ByteStream × Markers)
  | 0, _, _ => .error .timeout
  | fuel + 1, s, m =>
    if pyTell s < fsize then
      let r := pyRead s 4
      if r.1 = bCue then
        match cueBranch rate r.2 m with
        | .ok (s2, m2) => walkLoop rate fsize fuel s2 m2
        | .error e => .error e
      else if r.1 = bLIST then
        walkLoop rate fsize fuel (pyRead r.2 8).2 m
      else if r.1 = bLabl then
        match lablBranch r.2 m with
        | .ok (s2, m2) => walkLoop rate fsize fuel s2 m2
        | .error e => .error e
      else
        match skipUnknownChunk r.2 with
        | .ok s2 => walkLoop rate fsize fuel s2 m
        | .error e => .error e
    else .ok (s, m)

/-- Insert into a sorted list keeping earlier elements first on equal keys. -/
def insertByKey {α : Type} (key : α → Int) (a : α) : List α → List α
  | [] => [a]
  | b :: t => if key a ≤ key b then a :: b :: t else b :: insertByKey key a t

/-- Stable sort by an integer key. Python's `sorted` is a stable sort, and
every stable sort by a key computes the same list, so this insertion sort
is extensionally the source's `sorted(..., key=...)`. -/
def sortByKey {α : Type} (key : α → Int) : List α → List α
  | [] => []
  | a :: t => insertByKey key a (sortByKey key t)

/-- The chapter-building loop over the sorted markers: each chapter ends
where the next begins; the last ends at the total duration. -/
def buildChapters (rate nframes : Nat) : List Marker → List Chapter
  | [] => []
  | [e] => [⟨e.timestamp.getD 0, samplesToMillis rate (nframes : Int), .str e.label⟩]
  | e :: e2 :: rest =>
    ⟨e.timestamp.getD 0, e2.timestamp.getD 0, .str e.label⟩
      :: buildChapters rate nframes (e2 :: rest)

/-- The post-walk phase of `__read_chapters_from_wav_file`: `sorted`
precomputes `int(k["timestamp"])` for every entry (raising `ValueError` on
an entry whose timestamp is still the default `""`), sorts stably by that
key, and builds the chapter list. -/
def buildPhase (rate nframes : Nat) (markers : Markers) : Except PyError (List Chapter) :=
  let vals := markers.map Prod.snd
  if vals.all (fun v => v.timestamp.isSome) then
    .ok (buildChapters rate nframes (sortByKey (fun v => v.timestamp.getD 0) vals))
  else .error .valueError

/-- Model of `__read_chapters_from_wav_file` on a byte stream, with the
sample rate and total frame count (obtained by the source from `wave.open`
on the same file) passed as parameters. -/
def readChaptersFromWavFile (rate nframes : Nat) (data : List Nat) :
    Except PyError (List Chapter) :=
  match readRiffChunk ⟨data, 0⟩ with
  | .error e => .error e
  | .ok (fsize, s1) =>
    match walkLoop rate fsize (data.length + 1) s1 [] with
    | .error e => .error e
    | .ok (_, markers) => buildPhase rate nframes markers

/-! ### Serialised WAV streams

To quantify over WAV streams, chunk sequences are described by an item
list and serialised to bytes in the RIFF wire format the walker consumes:
each chunk is a 4-byte id, a 4-byte little-endian size, and its payload
(padded to even length). -/

/-- One chunk of a WAV body: a `cue ` chunk with its points, a
`LIST`-chunk header (the walker consumes only the 8 header bytes and then
treats nested `labl` records as top-level chunks), a `labl` record, or an
unrecognised chunk. -/
inductive WavItem where
  | cue : List (Nat × Nat) → WavItem
  | listHdr : WavItem
  | labl : Nat → List Nat → WavItem
  | unknown : List Nat → Nat → List Nat → WavItem

/-- Wire bytes of one chunk. A `cue ` chunk stores its point count twice
(size field `4 + 24 * n`, then the count); each point record is 24 bytes of
which the walker reads the id and the sample position. A `labl` chunk's
size field counts the 4 cue-id bytes plus the text; a trailing pad byte is
appended when that size is odd. An unknown chunk carries an arbitrary
declared size whose payload, per the RIFF format, has even padded length. -/
def cueRecord (p : Nat × Nat) : List Nat := le4 p.1 ++ le4 p.2 ++ List.replicate 16 0

def serializeItem : WavItem → List Nat
  | .cue pts =>
    bCue ++ le4 (4 + 24 * pts.length) ++ le4 pts.length ++ (pts.map cueRecord).flatten
  | .listHdr => bLIST ++ le4 4 ++ strBytes (r"adtl")
  | .labl id lab =>
    bLabl ++ le4 (4 + lab.length) ++ le4 id ++ lab
      ++ (if (4 + lab.length) % 2 = 1 then [0] else [])
  | .unknown cid size payload => cid ++ le4 size ++ payload

/-- Well-formedness of an item: all sizes fit in a signed 32-bit field, an
unknown chunk has a proper 4-byte unrecognised id and a payload matching
its declared size rounded up to even, and a label decodes as UTF-8 (so
Python's `bytes.decode` succeeds). -/
def wfItem : WavItem → Prop
  | .cue pts => pts.length < 2 ^ 31 ∧ ∀ p ∈ pts, p.1 < 2 ^ 31 ∧ p.2 < 2 ^ 31
  | .listHdr => True
  | .labl id lab =>
    id < 2 ^ 31 ∧ 4 + lab.length < 2 ^ 31 ∧ (utf8DecodeStr (rstripNulls lab)).isSome
  | .unknown cid size payload =>
    cid.length = 4 ∧ cid ≠ bCue ∧ cid ≠ bLIST ∧ cid ≠ bLabl
      ∧ size < 2 ^ 31 ∧ payload.length = size + size % 2

/-- The effect of one chunk on the marker dictionary (`labl` stores the
decoded text, defaulting is irrelevant under `wfItem`). -/
def processItem (rate : Nat) (m : Markers) : WavItem → Markers
  | .cue pts =>
    pts.foldl (fun m p =>
      setTimestamp m (p.1 : Int) (samplesToMillis rate (p.2 : Int))) m
  | .listHdr => m
  | .labl id lab => setLabel m (id : Int) ((utf8DecodeStr (rstripNulls lab)).getD (String.mk []))
  | .unknown _ _ _ => m

/-- Marker dictionary after a sequence of chunks. -/
def processItems (rate : Nat) (its : List WavItem) (m : Markers) : Markers :=
  its.foldl (processItem rate) m

/-- A whole WAV stream: `RIFF` magic, declared size covering the form type
and the body, the `WAVE` form type, then the chunk body. -/
def serializeWav (its : List WavItem) : List Nat :=
  let body := (its.map serializeItem).flatten
  bRIFF ++ le4 (4 + body.length) ++ bWAVE ++ body

/-! ### ID3 tag model (`__get_tags` and the tag getters)

The tag set is modelled at the level of the mutagen frame interface the
source uses: `tags.get("TPE1")`, `tags.getall("CTOC")`, a text frame's
`text` attribute (a list of strings — mutagen wraps a plain string passed
at construction into a one-element list), a `CHAP` frame's `element_id`,
`start_time`, `end_time` and `sub_frames.get("TIT2")`. A present frame
object is truthy; an absent one is `None`. -/

/-- A `CHAP` frame: element id, millisecond bounds, and the text of its
nested `TIT2` sub-frame when present. -/
structure CHAPFrame where
  element_id : String
  start_time : Int
  end_time : Int
  sub_tit2 : Option (List String)
deriving Repr, DecidableEq

/-- A `CTOC` frame: element id and child element ids. -/
structure CTOCFrame where
  element_id : String
  child_element_ids : List String
deriving Repr, DecidableEq

/-- An ID3 tag set as observed through the accessors the source uses. -/
structure ID3Tags where
  tpe1 : Option (List String) := none
  tit2 : Option (List String) := none
  trck : Option (List String) := none
  ctoc : List CTOCFrame := []
  chap : List CHAPFrame := []
deriving Repr, DecidableEq

/-- The mutagen `text` list a frame constructed with `text=value` holds:
a plain string is wrapped into a one-element list, a list is kept. -/
def textOf : PyStr → List String
  | .str s => [s]
  | .strList l => l

def chpPrefix : String := r"chp"

def tocId : String := r"toc"

/-- The element id `f"chp{i}"`. -/
def chpId (i : Nat) : String := chpPrefix ++ natToStr i

/-- The list comprehension `[f"chp{index}" for index in range(n)]`,
starting at index `k`. -/
def tocIdsFrom (k : Nat) : Nat → List String
  | 0 => []
  | n + 1 => chpId k :: tocIdsFrom (k + 1) n

/-- The `for idx, chapter in enumerate(metadata.chapters)` loop of
`__get_tags`, starting at index `k`: one `CHAP` frame per chapter with a
nested `TIT2` holding the chapter name. -/
def chapFramesFrom (k : Nat) : List Chapter → List CHAPFrame
  | [] => []
  | c :: rest => ⟨chpId k, c.start, c.stop, some (textOf c.name)⟩ :: chapFramesFrom (k + 1) rest

/-- Model of `__get_tags`: each frame is written only when the
corresponding field is truthy (`None`, the empty string, zero, and the
empty list are all falsy in Python). -/
def getTags (m : MetaData) : ID3Tags :=
  { tpe1 := match m.podcast_title with
      | some s => if s.length ≠ 0 then some [s] else none
      | none => none
    tit2 := match m.episode_title with
      | some s => if s.length ≠ 0 then some [s] else none
      | none => none
    trck := match m.episode_number with
      | some n => if n ≠ 0 then some [intToStr n] else none
      | none => none
    ctoc := match m.chapters with
      | some l => if l.length ≠ 0 then [⟨tocId, tocIdsFrom 0 l.length⟩] else []
      | none => []
    chap := match m.chapters with
      | some l => if l.length ≠ 0 then chapFramesFrom 0 l else []
      | none => [] }

/-- Model of `__get_podcast_name_from_id3_tags`: the frame must be present
and its text list non-empty, else `None`. -/
def getPodcastNameFromId3Tags (t : ID3Tags) : Option String :=
  match t.tpe1 with
  | some (x :: _) => some x
  | _ => none

/-- Model of `__get_episode_title_from_id3_tags`. -/
def getEpisodeTitleFromId3Tags (t : ID3Tags) : Option String :=
  match t.tit2 with
  | some (x :: _) => some x
  | _ => none

/-- Model of `__get_episode_number_from_id3_tags`:
`int(trck_tag.text[0])` raises `ValueError` when the text does not parse
as an integer. -/
def getEpisodeNumberFromId3Tags (t : ID3Tags) : Except PyError (Option Int) :=
  match t.trck with
  | some (x :: _) =>
    match pyIntParse x with
    | some n => .ok (some n)
    | none => .error .valueError
  | _ => .ok none

/-- The dictionary `all_chap_tags` built by iterating `tags.getall("CHAP")`
and keying each frame by its element id (a later frame with the same id
overwrites an earlier one), then looked up: search from the end. -/
def chapLookup : List CHAPFrame → String → Option CHAPFrame
  | [], _ => none
  | c :: rest, id =>
    match chapLookup rest id with
    | some r => some r
    | none => if c.element_id = id then some c else none

/-- The chapter built from a `CHAP` frame: note the source stores
`chapter_tit2_tag.text` — the mutagen text list — as the name when a
nested `TIT2` exists, and the empty string otherwise. -/
def chapOfFrame (f : CHAPFrame) : Chapter :=
  ⟨f.start_time, f.end_time,
    match f.sub_tit2 with
    | some txt => .strList txt
    | none => .str (String.mk [])⟩

/-- The loop over the `CTOC` child ids: `all_chap_tags[chapter_id]` raises
`KeyError` on a missing id. -/
def lookupChapters (chaps : List CHAPFrame) : List String → Except PyError (List Chapter)
  | [] => .ok []
  | id :: rest =>
    match chapLookup chaps id with
    | some f =>
      match lookupChapters chaps rest with
      | .ok cs => .ok (chapOfFrame f :: cs)
      | .error e => .error e
    | none => .error (.keyError id)

/-- Model of `__get_chapters_from_id3_tags`: no `CTOC` frame gives an
empty list; otherwise the first `CTOC` frame's child ids are resolved in
order. -/
def getChaptersFromId3Tags (t : ID3Tags) : Except PyError (List Chapter) :=
  match t.ctoc with
  | [] => .ok []
  | c :: _ => lookupChapters t.chap c.child_element_ids

/-- Model of the metadata decode of `__read_metadata_from_mp3_file`: the
four getters run in source order; an exception in any of them aborts the
whole decode. The decoded `chapters` field is always a list (possibly
empty), never `None`. -/
def decodeMetaData (t : ID3Tags) : Except PyError MetaData :=
  match getEpisodeNumberFromId3Tags t with
  | .error e => .error e
  | .ok en =>
    match getChaptersFromId3Tags t with
    | .error e => .error e
    | .ok ch =>
      .ok ⟨getPodcastNameFromId3Tags t, getEpisodeTitleFromId3Tags t, en, some ch⟩

/-! ### The parallel encoder (`class Lame`)

`encode` opens one `Wave_read` per worker at its sample offset, creates
the `output_chunks` buffers in index order, starts the worker threads,
joins them all, and concatenates the buffers in list order. `encode_chunk`
spawns one `lame.exe` process, drains its stdout into the worker's buffer
on a dedicated thread, feeds frames in 1024-sample batches, closes stdin,
and joins the drain thread; it never reads the process exit code or its
stderr. Each process is modelled by its observable behaviour: the bytes
it emits and its exit code. -/

/-- Observable behaviour of one encoder subprocess. -/
structure ProcessBehavior where
  output : List Nat
  exitCode : Int
deriving Repr, DecidableEq

/-- The content of a worker's output buffer after `encode_chunk` returns:
the drain thread has copied the process's whole stdout; the exit code is
never consulted. -/
def encodeChunkBuffer (p : ProcessBehavior) : List Nat := p.output

/-- Model of `Lame.update_samples_to_read`. -/
def updateSamplesToRead (samplesLeft chunkSize : Nat) : Nat × Nat :=
  if samplesLeft > chunkSize then (chunkSize, samplesLeft - chunkSize)
  else (samplesLeft, 0)

/-- The stdin feed loop of `encode_chunk`, returning the total number of
samples written to the process: `samples_to_read` is computed before the
loop, the loop body writes the current batch and then recomputes the pair
from `samples_left`, and the loop exits as soon as `samples_left` hits
zero. Fuel-indexed; `samples_left` strictly decreases, so fuel equal to
the initial remainder always suffices. -/
def feedLoopAux : Nat → Nat → Nat → Nat
  | 0, _, _ => 0
  | fuel + 1, samplesToRead, samplesLeft =>
    if samplesLeft > 0 then
      let p := updateSamplesToRead samplesLeft 1024
      samplesToRead + feedLoopAux fuel p.1 p.2
    else 0

/-- Total samples `encode_chunk` feeds to its process when assigned
`total` samples. -/
def samplesFed (total : Nat) : Nat :=
  let p := updateSamplesToRead total 1024
  feedLoopAux (total + 1) p.1 p.2

/-- Buffer state after workers complete in the given order: each
completion event writes that worker's process output into its own
`output_chunks` slot. -/
def applyCompletions (ps : List ProcessBehavior) (order : List Nat)
    (bufs : List (List Nat)) : List (List Nat) :=
  order.foldl (fun bs i => bs.set i (encodeChunkBuffer (ps.getD i ⟨[], 0⟩))) bufs

/-- Model of `Lame.encode`'s result: the `output_chunks` buffers are
created empty in index order, filled by the workers in whatever order they
complete, and concatenated in list (chunk-index) order after all threads
join. The returned value does not depend on any exit code. -/
def lameEncode (ps : List ProcessBehavior) (order : List Nat) : List Nat :=
  (applyCompletions ps order (List.replicate ps.length [])).flatten

/-! ### Filename guessing (`__guess_podcast_info_from_filename`)

The source applies `re.search("([0-9]{1,3}) *- *(.*)", basename)` — an
unanchored search with literal-space repetitions — to the base name
without extension. The regex engine's backtracking is deterministic here:
at each start position the digit group takes the longest run of up to
three digits after which, skipping spaces, a `-` follows; `(.*)`
greedily takes the rest of the line. -/

/-- Attempt to match the pattern at the current position with a digit
group of exactly `k` characters. -/
def tryMatchK (cs : List Char) (k : Nat) : Option (List Char × List Char) :=
  let g1 := cs.take k
  if g1.length = k ∧ g1.all Char.isDigit then
    match (cs.drop k).dropWhile (fun c => c = ' ') with
    | '-' :: r2 => some (g1, ((r2.dropWhile (fun c => c = ' ')).takeWhile (fun c => c ≠ '\n')))
    | _ => none
  else none

/-- Attempt to match the pattern at the current position: the greedy
`{1,3}` quantifier tries three digits, then two, then one. -/
def matchAt (cs : List Char) : Option (List Char × List Char) :=
  match tryMatchK cs 3 with
  | some r => some r
  | none =>
    match tryMatchK cs 2 with
    | some r => some r
    | none => tryMatchK cs 1

/-- Model of `re.search`: try each start position left to right. -/
def reSearch : List Char → Option (List Char × List Char)
  | [] => none
  | c :: rest =>
    match matchAt (c :: rest) with
    | some r => some r
    | none => reSearch rest

/-- Model of `os.path.basename`: the part after the last path separator
(the repository targets Windows, where both separators split). -/
def pyBasename (cs : List Char) : List Char :=
  ((cs.reverse.takeWhile (fun c => c ≠ '/' ∧ c ≠ '\\')).reverse)

/-- Model of `os.path.splitext(...)[0]`: drop the suffix from the last
dot, unless every character before that dot is itself a dot. -/
def splitextBase (b : List Char) : List Char :=
  match (b.reverse).span (fun c => c ≠ '.') with
  | (_, []) => b
  | (_, _ :: pre) => if pre.any (fun c => c ≠ '.') then pre.reverse else b

/-- Model of `__guess_podcast_info_from_filename`: search the pattern in
the base name without extension; on a match return
`(int(group(1)), group(2))`, else `(None, None)`. -/
def guessPodcastInfoFromFilename (path : String) : Option Int × Option String :=
  match reSearch (splitextBase (pyBasename path.toList)) with
  | some (g1, g2) => (pyIntParse (String.mk g1), some (String.mk g2))
  | none => (none, none)

/-! ### Walking a serialised stream

The central lemmas: the chunk walk over the serialisation of a
well-formed item list consumes exactly the serialised bytes and
accumulates exactly `processItems`. -/

theorem drop_shift (data : List Nat) (pos k : Nat) (xs rest : List Nat) (hk : xs.length = k)
    (h : data.drop pos = xs ++ rest) : data.drop (pos + k) = rest := by
  rw [← List.drop_drop, h, ← hk, List.drop_left]

theorem cueRecord_length (p : Nat × Nat) : (cueRecord p).length = 24 := by
  simp [cueRecord, le4]

theorem cueRecords_length (pts : List (Nat × Nat)) :
    (pts.map cueRecord).flatten.length = 24 * pts.length := by
  induction pts with
  | nil => rfl
  | cons p rest ih =>
    simp only [List.map_cons, List.flatten_cons, List.length_append, ih,
      cueRecord_length, List.length_cons]
    omega

theorem cueRecord_take (p : Nat × Nat) : (cueRecord p).take 4 = le4 p.1 := rfl

theorem cueRecord_drop_take (p : Nat × Nat) : ((cueRecord p).drop 4).take 4 = le4 p.2 := rfl

theorem le4_append_drop (a b : Nat) (t : List Nat) : ((le4 a ++ le4 b) ++ t).drop 4 = le4 b ++ t := rfl

theorem readCues_serialize (rate : Nat) (pts : List (Nat × Nat))
    (hb : ∀ p ∈ pts, p.1 < 2 ^ 31 ∧ p.2 < 2 ^ 31) :
    ∀ (data tail : List Nat) (pos : Nat) (m : Markers),
      data.drop pos = (pts.map cueRecord).flatten ++ tail →
      readCues rate pts.length ⟨data, pos⟩ m
        = .ok (⟨data, pos + 24 * pts.length⟩,
            pts.foldl (fun m p =>
              setTimestamp m (p.1 : Int) (samplesToMillis rate (p.2 : Int))) m) := by
  induction pts with
  | nil =>
    intro data tail pos m _
    simp [readCues]
  | cons p rest ih =>
    intro data tail pos m h
    have hbp := hb p (List.mem_cons_self p rest)
    have hbr : ∀ q ∈ rest, q.1 < 2 ^ 31 ∧ q.2 < 2 ^ 31 :=
      fun q hq => hb q (List.mem_cons_of_mem p hq)
    have hrec : data.drop pos = cueRecord p ++ ((rest.map cueRecord).flatten ++ tail) := by
      simpa [List.append_assoc] using h
    have hread := pyRead_exact data pos 24 (cueRecord p) _ (cueRecord_length p) hrec
    have hnext : data.drop (pos + 24) = (rest.map cueRecord).flatten ++ tail :=
      drop_shift data pos 24 (cueRecord p) _ (cueRecord_length p) hrec
    have hrest := ih hbr data tail (pos + 24) (setTimestamp m (p.1 : Int)
      (samplesToMillis rate (p.2 : Int))) hnext
    have hfin : pos + 24 + 24 * rest.length = pos + 24 * (rest.length + 1) := by omega
    simp only [List.length_cons, readCues, hread, cueRecord_length, if_pos,
      cueRecord_take, cueRecord_drop_take, leNat_le4_signed p.1 hbp.1,
      leNat_le4_signed p.2 hbp.2, hrest, List.foldl_cons, hfin]

theorem walkLoop_done (rate fsize fuel : Nat) (s : ByteStream) (m : Markers)
    (h : ¬ s.pos < fsize) : walkLoop rate fsize (fuel + 1) s m = .ok (s, m) := by
  simp only [walkLoop, pyTell, if_neg h]

theorem walkStep_cue (rate fsize fuel : Nat) (data tail : List Nat) (pos : Nat)
    (pts : List (Nat × Nat)) (m : Markers)
    (hwf : wfItem (.cue pts))
    (hpos : pos < fsize)
    (h : data.drop pos = serializeItem (.cue pts) ++ tail) :
    walkLoop rate fsize (fuel + 1) ⟨data, pos⟩ m
      = walkLoop rate fsize fuel ⟨data, pos + (serializeItem (.cue pts)).length⟩
          (processItem rate m (.cue pts)) := by
  obtain ⟨hn, hb⟩ := hwf
  have h1 : data.drop pos
      = bCue ++ ((le4 (4 + 24 * pts.length) ++ le4 pts.length)
          ++ ((pts.map cueRecord).flatten ++ tail)) := by
    simpa [serializeItem, List.append_assoc] using h
  have hread1 := pyRead_exact data pos 4 bCue _ rfl h1
  have h2 : data.drop (pos + 4)
      = (le4 (4 + 24 * pts.length) ++ le4 pts.length) ++ ((pts.map cueRecord).flatten ++ tail) :=
    drop_shift data pos 4 bCue _ rfl h1
  have hread2 := pyRead_exact data (pos + 4) 8 (le4 (4 + 24 * pts.length) ++ le4 pts.length) _
    (by simp [le4]) h2
  have h3 : data.drop (pos + 4 + 8) = (pts.map cueRecord).flatten ++ tail :=
    drop_shift data (pos + 4) 8 _ _ (by simp [le4]) h2
  have hcues := readCues_serialize rate pts hb data tail (pos + 4 + 8) m h3
  simp only [walkLoop, pyTell, if_pos hpos, hread1, if_pos rfl]
  have hdrop4 : (le4 (4 + 24 * pts.length) ++ le4 pts.length).drop 4 = le4 pts.length := rfl
  simp only [cueBranch, hread2, List.length_append, le4_length, if_pos, hdrop4,
    leNat_le4_signed pts.length hn, Int.toNat_natCast, hcues]
  have hlen : pos + 4 + 8 + 24 * pts.length = pos + (serializeItem (.cue pts)).length := by
    simp only [serializeItem, List.length_append, le4_length, cueRecords_length]
    have : bCue.length = 4 := rfl
    omega
  rw [hlen]
  rfl

theorem walkStep_listHdr (rate fsize fuel : Nat) (data tail : List Nat) (pos : Nat)
    (m : Markers)
    (hpos : pos < fsize)
    (h : data.drop pos = serializeItem .listHdr ++ tail) :
    walkLoop rate fsize (fuel + 1) ⟨data, pos⟩ m
      = walkLoop rate fsize fuel ⟨data, pos + (serializeItem .listHdr).length⟩
          (processItem rate m .listHdr) := by
  have h1 : data.drop pos = bLIST ++ ((le4 4 ++ strBytes (r"adtl")) ++ tail) := by
    simpa [serializeItem, List.append_assoc] using h
  have hread1 := pyRead_exact data pos 4 bLIST _ rfl h1
  have h2 : data.drop (pos + 4) = (le4 4 ++ strBytes (r"adtl")) ++ tail :=
    drop_shift data pos 4 bLIST _ rfl h1
  have hread2 := pyRead_exact data (pos + 4) 8 (le4 4 ++ strBytes (r"adtl")) _ (by rfl) h2
  have hne : bLIST ≠ bCue := by decide
  simp only [walkLoop, pyTell, if_pos hpos, hread1, if_neg hne, if_pos rfl, hread2]
  rfl

theorem walkStep_labl (rate fsize fuel : Nat) (data tail : List Nat) (pos : Nat)
    (id : Nat) (lab : List Nat) (m : Markers)
    (hwf : wfItem (.labl id lab))
    (hpos : pos < fsize)
    (h : data.drop pos = serializeItem (.labl id lab) ++ tail) :
    walkLoop rate fsize (fuel + 1) ⟨data, pos⟩ m
      = walkLoop rate fsize fuel ⟨data, pos + (serializeItem (.labl id lab)).length⟩
          (processItem rate m (.labl id lab)) := by
  obtain ⟨hid, hsz, hdec⟩ := hwf
  have hpadlen : (if (4 + lab.length) % 2 = 1 then [(0 : Nat)] else []).length = lab.length % 2 := by
    by_cases hp : (4 + lab.length) % 2 = 1 <;> simp [hp] <;> omega
  have h1 : data.drop pos
      = bLabl ++ ((le4 (4 + lab.length) ++ le4 id)
          ++ ((lab ++ (if (4 + lab.length) % 2 = 1 then [0] else [])) ++ tail)) := by
    simpa [serializeItem, List.append_assoc] using h
  have hread1 := pyRead_exact data pos 4 bLabl _ rfl h1
  have h2 : data.drop (pos + 4)
      = (le4 (4 + lab.length) ++ le4 id)
          ++ ((lab ++ (if (4 + lab.length) % 2 = 1 then [0] else [])) ++ tail) :=
    drop_shift data pos 4 bLabl _ rfl h1
  have hread2 := pyRead_exact data (pos + 4) 8 (le4 (4 + lab.length) ++ le4 id) _
    (by simp [le4]) h2
  have h3 : data.drop (pos + 4 + 8)
      = (lab ++ (if (4 + lab.length) % 2 = 1 then [0] else [])) ++ tail :=
    drop_shift data (pos + 4) 8 _ _ (by simp [le4]) h2
  have hlablen : (lab ++ (if (4 + lab.length) % 2 = 1 then [0] else [])).length
      = lab.length + lab.length % 2 := by
    rw [List.length_append, hpadlen]
  have hread3 := pyRead_exact data (pos + 4 + 8) (lab.length + lab.length % 2)
    (lab ++ (if (4 + lab.length) % 2 = 1 then [0] else [])) _ hlablen h3
  have hne1 : bLabl ≠ bCue := by decide
  have hne2 : bLabl ≠ bLIST := by decide
  have htake : (le4 (4 + lab.length) ++ le4 id).take 4 = le4 (4 + lab.length) := rfl
  have hdrop : (le4 (4 + lab.length) ++ le4 id).drop 4 = le4 id := rfl
  have hstrip : rstripNulls (lab ++ (if (4 + lab.length) % 2 = 1 then [0] else []))
      = rstripNulls lab := by
    by_cases hp : (4 + lab.length) % 2 = 1
    · rw [if_pos hp, rstripNulls_append_zero]
    · rw [if_neg hp, List.append_nil]
  obtain ⟨lb, hlb⟩ := Option.isSome_iff_exists.mp hdec
  have hsize : ((4 + lab.length : Nat) : Int) + Int.emod ((4 + lab.length : Nat) : Int) 2 - 4
      = ((lab.length + lab.length % 2 : Nat) : Int) := by
    have : Int.emod ((4 + lab.length : Nat) : Int) 2 = ((4 + lab.length) % 2 : Nat) := by
      push_cast
      rfl
    rw [this]
    push_cast
    omega
  have hnn := Int.natCast_nonneg (lab.length + lab.length % 2)
  have hn1 : ¬ ((lab.length + lab.length % 2 : Nat) : Int) < -1 := by omega
  have hn2 : ¬ ((lab.length + lab.length % 2 : Nat) : Int) = -1 := by omega
  have hfin : pos + 4 + 8 + (lab.length + lab.length % 2)
      = pos + (serializeItem (.labl id lab)).length := by
    simp only [serializeItem, List.length_append, le4_length, hpadlen]
    have : bLabl.length = 4 := rfl
    omega
  simp only [walkLoop, pyTell, if_pos hpos, hread1, if_neg hne1, if_neg hne2, if_pos rfl,
    lablBranch, hread2, List.length_append, le4_length, if_pos, htake, hdrop,
    leNat_le4_signed (4 + lab.length) hsz, leNat_le4_signed id hid, hsize,
    pyReadI, if_neg hn1, if_neg hn2, Int.toNat_natCast, hread3, hstrip, hlb,
    processItem, Option.getD_some, hfin]

theorem walkStep_unknown (rate fsize fuel : Nat) (data tail : List Nat) (pos : Nat)
    (cid : List Nat) (size : Nat) (payload : List Nat) (m : Markers)
    (hwf : wfItem (.unknown cid size payload))
    (hpos : pos < fsize)
    (h : data.drop pos = serializeItem (.unknown cid size payload) ++ tail) :
    walkLoop rate fsize (fuel + 1) ⟨data, pos⟩ m
      = walkLoop rate fsize fuel ⟨data, pos + (serializeItem (.unknown cid size payload)).length⟩
          (processItem rate m (.unknown cid size payload)) := by
  obtain ⟨hclen, hne1, hne2, hne3, hsz, hplen⟩ := hwf
  have h1 : data.drop pos = cid ++ (le4 size ++ (payload ++ tail)) := by
    simpa [serializeItem, List.append_assoc] using h
  have hread1 := pyRead_exact data pos 4 cid _ hclen h1
  have h2 : data.drop (pos + 4) = le4 size ++ (payload ++ tail) :=
    drop_shift data pos 4 cid _ hclen h1
  have hread2 := pyRead_exact data (pos + 4) 4 (le4 size) _ (le4_length size) h2
  have hemod : Int.emod ((size : Nat) : Int) 2 = ((size % 2 : Nat) : Int) := by
    push_cast
    rfl
  have hseek : pySeek ⟨data, pos + 4 + 4⟩
      (if Int.emod ((size : Nat) : Int) 2 = 1 then ((size : Nat) : Int) + 1
        else ((size : Nat) : Int))
      = .ok ⟨data, pos + (serializeItem (.unknown cid size payload)).length⟩ := by
    have hfin : pos + 4 + 4 + (size + size % 2)
        = pos + (serializeItem (.unknown cid size payload)).length := by
      simp only [serializeItem, List.length_append, le4_length, hplen]
      omega
    by_cases hp : size % 2 = 1
    · rw [hemod]
      have hc : ((size % 2 : Nat) : Int) = 1 := by rw [hp]; rfl
      rw [if_pos hc]
      unfold pySeek
      rw [if_neg (by omega)]
      refine congrArg Except.ok ?_
      have : ((pos + 4 + 4 : Nat) : Int) + ((size : Nat) + 1) = ((pos + 4 + 4 + (size + size % 2) : Nat) : Int) := by
        push_cast
        omega
      rw [this, Int.toNat_natCast, hfin]
    · rw [hemod]
      have hc : ¬ ((size % 2 : Nat) : Int) = 1 := by
        have : size % 2 = 0 := by omega
        rw [this]
        decide
      rw [if_neg hc]
      unfold pySeek
      rw [if_neg (by omega)]
      refine congrArg Except.ok ?_
      have : ((pos + 4 + 4 : Nat) : Int) + ((size : Nat)) = ((pos + 4 + 4 + (size + size % 2) : Nat) : Int) := by
        have : size % 2 = 0 := by omega
        push_cast
        omega
      rw [this, Int.toNat_natCast, hfin]
  simp only [walkLoop, pyTell, if_pos hpos, hread1, if_neg hne1, if_neg hne2, if_neg hne3,
    skipUnknownChunk, hread2, hclen, if_pos, le4_length,
    leNat_le4_signed size hsz, hseek, processItem]

theorem serializeItem_length_pos (it : WavItem) : 1 ≤ (serializeItem it).length := by
  cases it with
  | cue pts => simp [serializeItem, List.length_append, bCue, strBytes, le4]
  | listHdr => decide
  | labl id lab => simp [serializeItem, List.length_append, bLabl, strBytes, le4]
  | unknown cid size payload =>
    simp only [serializeItem, List.length_append, le4_length]
    omega

theorem serializeItems_length_ge (its : List WavItem) :
    its.length ≤ (its.map serializeItem).flatten.length := by
  induction its with
  | nil => simp
  | cons it rest ih =>
    simp only [List.map_cons, List.flatten_cons, List.length_append, List.length_cons]
    have := serializeItem_length_pos it
    omega

/-- Walking the serialisation of well-formed items from any position that
the declared container size covers consumes exactly the serialised bytes
and performs exactly `processItems`, one unit of fuel per chunk. -/
theorem walkLoop_serialize (rate fsize : Nat) (its : List WavItem)
    (hwf : ∀ it ∈ its, wfItem it) :
    ∀ (fuel pos : Nat) (data tail : List Nat) (m : Markers),
      data.drop pos = (its.map serializeItem).flatten ++ tail →
      pos + (its.map serializeItem).flatten.length ≤ fsize →
      walkLoop rate fsize (fuel + its.length) ⟨data, pos⟩ m
        = walkLoop rate fsize fuel ⟨data, pos + (its.map serializeItem).flatten.length⟩
            (processItems rate its m) := by
  induction its with
  | nil =>
    intro fuel pos data tail m _ _
    simp [processItems]
  | cons it rest ih =>
    intro fuel pos data tail m h hfit
    have hwit := hwf it (List.mem_cons_self it rest)
    have hwr : ∀ x ∈ rest, wfItem x := fun x hx => hwf x (List.mem_cons_of_mem it hx)
    have hsplit : data.drop pos
        = serializeItem it ++ ((rest.map serializeItem).flatten ++ tail) := by
      simpa [List.append_assoc] using h
    have hflat : ((it :: rest).map serializeItem).flatten.length
        = (serializeItem it).length + (rest.map serializeItem).flatten.length := by
      simp [List.length_append]
    have hpos : pos < fsize := by
      have h1 := serializeItem_length_pos it
      omega
    have hnext : data.drop (pos + (serializeItem it).length)
        = (rest.map serializeItem).flatten ++ tail :=
      drop_shift data pos (serializeItem it).length _ _ rfl hsplit
    have hfit2 : pos + (serializeItem it).length + (rest.map serializeItem).flatten.length
        ≤ fsize := by omega
    have hsucc : fuel + (it :: rest).length = (fuel + rest.length) + 1 := by
      simp [List.length_cons]
      omega
    have hstep : walkLoop rate fsize ((fuel + rest.length) + 1) ⟨data, pos⟩ m
        = walkLoop rate fsize (fuel + rest.length)
            ⟨data, pos + (serializeItem it).length⟩ (processItem rate m it) := by
      cases it with
      | cue pts => exact walkStep_cue rate fsize (fuel + rest.length) data _ pos pts m hwit hpos hsplit
      | listHdr => exact walkStep_listHdr rate fsize (fuel + rest.length) data _ pos m hpos hsplit
      | labl id lab =>
        exact walkStep_labl rate fsize (fuel + rest.length) data _ pos id lab m hwit hpos hsplit
      | unknown cid size payload =>
        exact walkStep_unknown rate fsize (fuel + rest.length) data _ pos cid size payload m
          hwit hpos hsplit
    have hrest := ih hwr fuel (pos + (serializeItem it).length) data tail
      (processItem rate m it) hnext hfit2
    rw [hsucc, hstep, hrest]
    have hpos2 : pos + (serializeItem it).length + (rest.map serializeItem).flatten.length
        = pos + ((it :: rest).map serializeItem).flatten.length := by omega
    rw [hpos2]
    rfl

/-- The whole extraction on a serialised stream: `__read_riff_chunk`
accepts the header, the walk performs `processItems` and stops exactly at
the declared size, and the build phase runs on the resulting markers. -/
theorem readChaptersFromWavFile_serialize (rate nframes : Nat) (its : List WavItem)
    (hwf : ∀ it ∈ its, wfItem it)
    (hlen : 4 + (its.map serializeItem).flatten.length < 2 ^ 32) :
    readChaptersFromWavFile rate nframes (serializeWav its)
      = buildPhase rate nframes (processItems rate its []) := by
  set B := (its.map serializeItem).flatten.length with hB
  have hdata : serializeWav its
      = bRIFF ++ (le4 (4 + B) ++ (bWAVE ++ (its.map serializeItem).flatten)) := by
    simp [serializeWav, List.append_assoc, hB]
  have hdlen : (serializeWav its).length = 12 + B := by
    rw [hdata]
    simp only [List.length_append, le4_length]
    have h1 : bRIFF.length = 4 := rfl
    have h2 : bWAVE.length = 4 := rfl
    rw [hB]
    omega
  have hread1 : pyRead ⟨serializeWav its, 0⟩ 4 = (bRIFF, ⟨serializeWav its, 0 + 4⟩) :=
    pyRead_exact _ 0 4 bRIFF (le4 (4 + B) ++ (bWAVE ++ (its.map serializeItem).flatten)) rfl
      (by rw [List.drop_zero, hdata])
  have h2 : (serializeWav its).drop (0 + 4)
      = le4 (4 + B) ++ (bWAVE ++ (its.map serializeItem).flatten) :=
    drop_shift _ 0 4 bRIFF (le4 (4 + B) ++ (bWAVE ++ (its.map serializeItem).flatten)) rfl
      (by rw [List.drop_zero, hdata])
  have hread2 := pyRead_exact (serializeWav its) (0 + 4) 4 (le4 (4 + B)) _ (le4_length _) h2
  have h3 : (serializeWav its).drop (0 + 4 + 4) = bWAVE ++ (its.map serializeItem).flatten :=
    drop_shift _ (0 + 4) 4 (le4 (4 + B)) _ (le4_length _) h2
  have hread3 := pyRead_exact (serializeWav its) (0 + 4 + 4) 4 bWAVE _ rfl h3
  have h4 : (serializeWav its).drop (0 + 4 + 4 + 4) = (its.map serializeItem).flatten ++ [] :=
    by
      rw [List.append_nil]
      exact drop_shift _ (0 + 4 + 4) 4 bWAVE _ rfl h3
  have hfsize : leNat (le4 (4 + B)) + 8 = 12 + B := by
    rw [leNat_le4, Nat.mod_eq_of_lt hlen]
    omega
  have hitems := serializeItems_length_ge its
  have hfuel : (serializeWav its).length + 1 = (13 + B - its.length) + its.length := by
    rw [hdlen]
    omega
  have hwalk := walkLoop_serialize rate (12 + B) its hwf (13 + B - its.length) 12
    (serializeWav its) [] [] (by simpa using h4) (by omega)
  have hdone : walkLoop rate (12 + B) (13 + B - its.length)
      ⟨serializeWav its, 12 + B⟩ (processItems rate its [])
      = .ok (⟨serializeWav its, 12 + B⟩, processItems rate its []) := by
    have hk : 13 + B - its.length = (12 + B - its.length) + 1 := by omega
    rw [hk]
    exact walkLoop_done _ _ _ _ _ (by show ¬ (12 + B) < 12 + B ; omega)
  unfold readChaptersFromWavFile
  simp only [readRiffChunk, hread1, if_pos rfl, hread2, le4_length, if_pos, hread3, hfsize]
  rw [hfuel, hwalk, hdone]

/-! ### Chapters from cue points -/

/-- The chapter list the specification's formula predicts for timestamps
`t0, ..., t(n-1)`: chapter `i` runs from `t_i` to `t_(i+1)`, the last one
to the total duration, names empty. -/
def specChapterList (rate nframes : Nat) : List Int → List Chapter
  | [] => []
  | [t] => [⟨t, samplesToMillis rate (nframes : Int), .str ""⟩]
  | t :: t2 :: rest => ⟨t, t2, .str ""⟩ :: specChapterList rate nframes (t2 :: rest)

theorem specChapterList_length (rate nframes : Nat) (ts : List Int) :
    (specChapterList rate nframes ts).length = ts.length := by
  induction ts with
  | nil => rfl
  | cons t rest ih =>
    cases rest with
    | nil => rfl
    | cons t2 r2 => simp only [specChapterList, List.length_cons] at ih ⊢; omega

theorem specChapterList_starts (rate nframes : Nat) (ts : List Int) :
    (specChapterList rate nframes ts).map Chapter.start = ts := by
  induction ts with
  | nil => rfl
  | cons t rest ih =>
    cases rest with
    | nil => rfl
    | cons t2 r2 => simp only [specChapterList, List.map_cons] at ih ⊢; rw [ih]

theorem specChapterList_contig (rate nframes : Nat) (ts : List Int) :
    ((specChapterList rate nframes ts).map Chapter.stop).dropLast
      = ((specChapterList rate nframes ts).map Chapter.start).tail := by
  induction ts with
  | nil => rfl
  | cons t rest ih =>
    cases rest with
    | nil => rfl
    | cons t2 r2 =>
      have hne : (specChapterList rate nframes (t2 :: r2)).map Chapter.stop ≠ [] := by
        intro h
        have := congrArg List.length h
        simp [specChapterList_length] at this
      simp only [specChapterList, List.map_cons, List.tail_cons] at ih ⊢
      rw [List.dropLast_cons_of_ne_nil hne, ih]
      have hs := specChapterList_starts rate nframes (t2 :: r2)
      rw [hs]
      simp [specChapterList]

theorem specChapterList_last (rate nframes : Nat) (ts : List Int) (h : ts ≠ []) :
    ((specChapterList rate nframes ts).map Chapter.stop).getLast?
      = some (samplesToMillis rate (nframes : Int)) := by
  induction ts with
  | nil => exact absurd rfl h
  | cons t rest ih =>
    cases rest with
    | nil => rfl
    | cons t2 r2 =>
      have hne : (specChapterList rate nframes (t2 :: r2)).map Chapter.stop ≠ [] := by
        intro hx
        have := congrArg List.length hx
        simp [specChapterList_length] at this
      obtain ⟨x, xs, hx⟩ : ∃ x xs,
          List.map Chapter.stop (specChapterList rate nframes (t2 :: r2)) = x :: xs := by
        cases hxx : List.map Chapter.stop (specChapterList rate nframes (t2 :: r2)) with
        | nil => exact absurd hxx hne
        | cons x xs => exact ⟨x, xs, rfl⟩
      simp only [specChapterList, List.map_cons]
      rw [hx, List.getLast?_cons_cons, ← hx]
      exact ih (by simp)

theorem buildChapters_spec (rate nframes : Nat) (ts : List Int) :
    buildChapters rate nframes (ts.map (fun t => (⟨some t, ""⟩ : Marker)))
      = specChapterList rate nframes ts := by
  induction ts with
  | nil => rfl
  | cons t rest ih =>
    cases rest with
    | nil => rfl
    | cons t2 r2 =>
      simp only [List.map_cons, buildChapters, specChapterList, Option.getD_some] at ih ⊢
      rw [ih]

theorem setTimestamp_fresh (m : Markers) (id t : Int) (h : ∀ q ∈ m, q.1 ≠ id) :
    setTimestamp m id t = m ++ [(id, (⟨some t, ""⟩ : Marker))] := by
  induction m with
  | nil => rfl
  | cons a rest ih =>
    obtain ⟨k, e⟩ := a
    have hk : k ≠ id := h (k, e) (List.mem_cons_self _ _)
    simp only [setTimestamp, if_neg hk, List.cons_append]
    rw [ih (fun q hq => h q (List.mem_cons_of_mem _ hq))]

theorem foldl_setTimestamp_fresh (rate : Nat) (pts : List (Nat × Nat)) :
    ∀ m : Markers, (pts.map Prod.fst).Nodup →
      (∀ p ∈ pts, ∀ q ∈ m, q.1 ≠ ((p.1 : Nat) : Int)) →
      pts.foldl (fun m p => setTimestamp m (p.1 : Int) (samplesToMillis rate (p.2 : Int))) m
        = m ++ pts.map (fun p =>
            (((p.1 : Nat) : Int), (⟨some (samplesToMillis rate (p.2 : Int)), ""⟩ : Marker))) := by
  induction pts with
  | nil => intro m _ _; simp
  | cons p rest ih =>
    intro m hnd hfresh
    have hnd2 : (rest.map Prod.fst).Nodup := (List.nodup_cons.mp hnd).2
    have hnotmem : p.1 ∉ rest.map Prod.fst := (List.nodup_cons.mp hnd).1
    have hfresh2 : ∀ r ∈ rest, ∀ q ∈ m ++ [(((p.1 : Nat) : Int),
        (⟨some (samplesToMillis rate (p.2 : Int)), ""⟩ : Marker))], q.1 ≠ ((r.1 : Nat) : Int) := by
      intro r hr q hq
      rcases List.mem_append.mp hq with hqm | hqp
      · exact hfresh r (List.mem_cons_of_mem p hr) q hqm
      · have : q = (((p.1 : Nat) : Int),
            (⟨some (samplesToMillis rate (p.2 : Int)), ""⟩ : Marker)) := by simpa using hqp
        subst this
        simp only [ne_eq, Int.natCast_inj]
        intro he
        exact hnotmem (he ▸ List.mem_map_of_mem Prod.fst hr)
    have hstep := setTimestamp_fresh m (p.1 : Int) (samplesToMillis rate (p.2 : Int))
      (fun q hq => hfresh p (List.mem_cons_self p rest) q hq)
    simp only [List.foldl_cons, hstep, List.map_cons]
    rw [ih _ hnd2 hfresh2]
    simp [List.append_assoc]

theorem insertByKey_head {α : Type} (key : α → Int) (a : α) (l : List α)
    (h : ∀ b, l.head? = some b → key a ≤ key b) : insertByKey key a l = a :: l := by
  cases l with
  | nil => rfl
  | cons b t => simp only [insertByKey, if_pos (h b rfl)]

theorem sortByKey_sorted {α : Type} (key : α → Int) (l : List α)
    (h : l.Chain' (fun x y => key x ≤ key y)) : sortByKey key l = l := by
  induction l with
  | nil => rfl
  | cons a t ih =>
    have ht := List.Chain'.tail h
    simp only [sortByKey, ih ht]
    refine insertByKey_head key a t ?_
    intro b hb
    cases t with
    | nil => simp at hb
    | cons c t2 =>
      have hbc : c = b := by simpa using hb
      subst hbc
      exact (List.chain'_cons.mp h).1

theorem buildPhase_of_timestamps (rate nframes : Nat) (ms : Markers) (ts : List Int)
    (hvals : ms.map Prod.snd = ts.map (fun t => (⟨some t, ""⟩ : Marker)))
    (hsorted : ts.Chain' (· ≤ ·)) :
    buildPhase rate nframes ms = .ok (specChapterList rate nframes ts) := by
  have hall : (ts.map (fun t => (⟨some t, ""⟩ : Marker))).all
      (fun v => v.timestamp.isSome) = true := by
    simp [List.all_eq_true]
  have hchain : (ts.map (fun t => (⟨some t, ""⟩ : Marker))).Chain'
      (fun x y => (fun v : Marker => v.timestamp.getD 0) x
        ≤ (fun v : Marker => v.timestamp.getD 0) y) := by
    rw [List.chain'_map]
    simpa using hsorted
  unfold buildPhase
  rw [hvals, if_pos hall, sortByKey_sorted _ _ hchain, buildChapters_spec]

/-- Claim C1, amended: on a WAV stream holding cue points with strictly
increasing sample positions (positive rate below `2 ^ 32`, as the 4-byte
wave header field guarantees), extraction returns exactly one chapter per
point with `start_i = int((p_i / r) * 1000)` computed in IEEE-754 double
precision — which can fall one below `floor(p_i * 1000 / r)`, e.g.
`p = 8008`, `r = 8000` gives `1000`, not `1001` — `end_i = start_(i+1)`,
the last end at `int((total / r) * 1000)`, and the starts NON-DECREASING
(distinct positions can land in the same millisecond, so strict increase
does not survive the conversion).  `hmono` records that the converted
millisecond values inherit the order of the positions — true of every
input because IEEE round-to-nearest and truncation are monotone — as a
hypothesis on the concrete values, discharged by computation in the
witness. -/
theorem wav_cue_chapter_extraction (rate nframes : Nat) (pts : List (Nat × Nat))
    (hr : 0 < rate) (hr32 : rate < 2 ^ 32)
    (hn : pts.length < 2 ^ 27)
    (hb : ∀ p ∈ pts, p.1 < 2 ^ 31 ∧ p.2 < 2 ^ 31)
    (hids : (pts.map Prod.fst).Nodup)
    (hpos : (pts.map Prod.snd).Chain' (· < ·))
    (hmono : (pts.map (fun p : Nat × Nat => samplesToMillis rate (p.2 : Int))).Chain' (· ≤ ·)) :
    ∃ cs, readChaptersFromWavFile rate nframes (serializeWav [.cue pts]) = .ok cs
      ∧ cs.length = pts.length
      ∧ cs.map Chapter.start = pts.map (fun p : Nat × Nat => samplesToMillis rate (p.2 : Int))
      ∧ (cs.map Chapter.stop).dropLast = (cs.map Chapter.start).tail
      ∧ (cs ≠ [] → (cs.map Chapter.stop).getLast? = some (samplesToMillis rate (nframes : Int)))
      ∧ (cs.map Chapter.start).Chain' (· ≤ ·) := by
  have hwf : ∀ it ∈ [WavItem.cue pts], wfItem it := by
    intro it hit
    have : it = WavItem.cue pts := by simpa using hit
    subst this
    exact ⟨by omega, hb⟩
  have hflat : (([WavItem.cue pts]).map serializeItem).flatten = serializeItem (.cue pts) := by
    simp
  have hslen : (serializeItem (.cue pts)).length = 12 + 24 * pts.length := by
    simp only [serializeItem, List.length_append, le4_length, cueRecords_length]
    rfl
  have hlen : 4 + (([WavItem.cue pts]).map serializeItem).flatten.length < 2 ^ 32 := by
    rw [hflat, hslen]
    omega
  have hser := readChaptersFromWavFile_serialize rate nframes [.cue pts] hwf hlen
  have hmark : processItems rate [.cue pts] []
      = pts.map (fun p : Nat × Nat =>
          (((p.1 : Nat) : Int), (⟨some (samplesToMillis rate (p.2 : Int)), ""⟩ : Marker))) := by
    have := foldl_setTimestamp_fresh rate pts [] hids (by simp)
    simpa [processItems, processItem] using this
  set ts : List Int := pts.map (fun p : Nat × Nat => samplesToMillis rate (p.2 : Int))
    with hts
  have hmark2 : (pts.map (fun p : Nat × Nat =>
        (((p.1 : Nat) : Int),
          (⟨some (samplesToMillis rate (p.2 : Int)), ""⟩ : Marker)))).map Prod.snd
      = ts.map (fun t => (⟨some t, ""⟩ : Marker)) := by
    rw [hts, List.map_map, List.map_map]
    rfl
  have hsorted : ts.Chain' (· ≤ ·) := by
    rw [hts]
    exact hmono
  have hbuild : buildPhase rate nframes (processItems rate [.cue pts] [])
      = .ok (specChapterList rate nframes ts) := by
    rw [hmark]
    exact buildPhase_of_timestamps rate nframes _ ts hmark2 hsorted
  refine ⟨specChapterList rate nframes ts, ?_, ?_, ?_, ?_, ?_, ?_⟩
  · rw [hser, hbuild]
  · rw [specChapterList_length, hts, List.length_map]
  · rw [specChapterList_starts, hts]
  · exact specChapterList_contig rate nframes ts
  · intro hne
    have htsne : ts ≠ [] := by
      intro hx
      exact hne (by rw [hx]; rfl)
    rw [specChapterList_last rate nframes ts htsne]
  · rw [specChapterList_starts]
    exact hsorted

/-- Claim C1 as stated is false twice over.  First, cue points at samples
0 and 1 of a 44.1 kHz stream both land in millisecond 0, so the chapter
starts are not strictly increasing.  Second, the claimed exact formula
`floor(p * 1000 / r)` disagrees with the program's float arithmetic: a cue
at sample 8008 of an 8000 Hz stream starts at `int((8008 / 8000) * 1000)
= 1000` milliseconds (the double division rounds `8008 / 8000` just below
`1.001`), while `floor(8008 * 1000 / 8000) = 1001`. -/
theorem wav_cue_chapter_extraction_counterexample :
    (readChaptersFromWavFile 44100 44100 (serializeWav [.cue [(1, 0), (2, 1)]])
      = .ok [⟨0, 0, .str ""⟩, ⟨0, 1000, .str ""⟩]
    ∧ ¬ (([⟨0, 0, .str ""⟩, ⟨0, 1000, .str ""⟩] : List Chapter).map Chapter.start).Chain' (· < ·))
    ∧ readChaptersFromWavFile 8000 8008 (serializeWav [.cue [(1, 8008)]])
      = .ok [⟨1000, 1000, .str ""⟩]
    ∧ (8008 * 1000 / 8000 : Nat) = 1001 :=
  ⟨⟨rfl, by simp [List.chain'_cons]⟩, rfl, by decide⟩

theorem wav_cue_chapter_extraction_witness :
    ((0 : Nat) < 44100 ∧ (44100 : Nat) < 2 ^ 32
      ∧ (3 : Nat) < 2 ^ 27
      ∧ (∀ p ∈ [((1 : Nat), (0 : Nat)), (2, 44100), (3, 88200)], p.1 < 2 ^ 31 ∧ p.2 < 2 ^ 31)
      ∧ ([((1 : Nat), (0 : Nat)), (2, 44100), (3, 88200)].map Prod.fst).Nodup
      ∧ ([((1 : Nat), (0 : Nat)), (2, 44100), (3, 88200)].map Prod.snd).Chain' (· < ·)
      ∧ ([((1 : Nat), (0 : Nat)), (2, 44100), (3, 88200)].map
          (fun p : Nat × Nat => samplesToMillis 44100 (p.2 : Int))).Chain' (· ≤ ·))
    ∧ ∃ cs, readChaptersFromWavFile 44100 132300
          (serializeWav [.cue [(1, 0), (2, 44100), (3, 88200)]]) = .ok cs
        ∧ cs.length = ([((1 : Nat), (0 : Nat)), (2, 44100), (3, 88200)]).length
        ∧ cs.map Chapter.start = [((1 : Nat), (0 : Nat)), (2, 44100), (3, 88200)].map
            (fun p : Nat × Nat => samplesToMillis 44100 (p.2 : Int))
        ∧ (cs.map Chapter.stop).dropLast = (cs.map Chapter.start).tail
        ∧ (cs ≠ [] → (cs.map Chapter.stop).getLast?
            = some (samplesToMillis 44100 ((132300 : Nat) : Int)))
        ∧ (cs.map Chapter.start).Chain' (· ≤ ·) :=
  ⟨⟨by decide, by decide, by decide, by decide, by decide, by norm_num [List.chain'_cons],
      by
        have hv : ([((1 : Nat), (0 : Nat)), (2, 44100), (3, 88200)].map
            (fun p : Nat × Nat => samplesToMillis 44100 (p.2 : Int)))
            = [(0 : Int), 1000, 2000] := by decide
        rw [hv]
        norm_num [List.chain'_cons]⟩,
    wav_cue_chapter_extraction 44100 132300 [(1, 0), (2, 44100), (3, 88200)]
      (by decide) (by decide) (by decide) (by decide) (by decide)
      (by norm_num [List.chain'_cons])
      (by
        have hv : ([((1 : Nat), (0 : Nat)), (2, 44100), (3, 88200)].map
            (fun p : Nat × Nat => samplesToMillis 44100 (p.2 : Int)))
            = [(0 : Int), 1000, 2000] := by decide
        rw [hv]
        norm_num [List.chain'_cons])⟩

/-! ### Unknown chunks do not affect the walk (claim C6) -/

/-- Whether an item is an unrecognised chunk. -/
def WavItem.isUnknown : WavItem → Bool
  | .unknown _ _ _ => true
  | _ => false

instance wfItemDecidable : DecidablePred wfItem := fun it =>
  match it with
  | .cue pts => inferInstanceAs
      (Decidable (pts.length < 2 ^ 31 ∧ ∀ p ∈ pts, p.1 < 2 ^ 31 ∧ p.2 < 2 ^ 31))
  | .listHdr => inferInstanceAs (Decidable True)
  | .labl id lab => inferInstanceAs
      (Decidable (id < 2 ^ 31 ∧ 4 + lab.length < 2 ^ 31
        ∧ (utf8DecodeStr (rstripNulls lab)).isSome))
  | .unknown cid size payload => inferInstanceAs
      (Decidable (cid.length = 4 ∧ cid ≠ bCue ∧ cid ≠ bLIST ∧ cid ≠ bLabl
        ∧ size < 2 ^ 31 ∧ payload.length = size + size % 2))

theorem processItems_filter_unknown (rate : Nat) (its : List WavItem) :
    ∀ m : Markers,
      processItems rate (its.filter (fun it => ! it.isUnknown)) m = processItems rate its m := by
  induction its with
  | nil => intro m; rfl
  | cons it rest ih =>
    intro m
    cases it with
    | unknown cid size payload =>
      simp only [List.filter_cons, WavItem.isUnknown, Bool.not_true, processItems,
        List.foldl_cons, processItem]
      exact ih m
    | cue pts =>
      simp only [List.filter_cons, WavItem.isUnknown, Bool.not_false, if_pos, processItems,
        List.foldl_cons]
      exact ih _
    | listHdr =>
      simp only [List.filter_cons, WavItem.isUnknown, Bool.not_false, if_pos, processItems,
        List.foldl_cons]
      exact ih _
    | labl id lab =>
      simp only [List.filter_cons, WavItem.isUnknown, Bool.not_false, if_pos, processItems,
        List.foldl_cons]
      exact ih _

theorem serialize_filter_le (its : List WavItem) (p : WavItem → Bool) :
    ((its.filter p).map serializeItem).flatten.length
      ≤ (its.map serializeItem).flatten.length := by
  induction its with
  | nil => simp
  | cons it rest ih =>
    by_cases hp : p it = true
    · rw [List.filter_cons, if_pos hp]
      simp only [List.map_cons, List.flatten_cons, List.length_append]
      omega
    · rw [List.filter_cons, if_neg hp]
      simp only [List.map_cons, List.flatten_cons, List.length_append]
      omega

/-- Claim C6: removing the unrecognised chunks from a well-formed stream
does not change the extracted chapters — the walker advances over each
unknown chunk by its declared size (plus one when odd) and lands exactly
on the next chunk. -/
theorem unknown_chunk_invariance (rate nframes : Nat) (its : List WavItem)
    (hwf : ∀ it ∈ its, wfItem it)
    (hlen : 4 + (its.map serializeItem).flatten.length < 2 ^ 32) :
    readChaptersFromWavFile rate nframes (serializeWav its)
      = readChaptersFromWavFile rate nframes
          (serializeWav (its.filter (fun it => ! it.isUnknown))) := by
  have hwf2 : ∀ it ∈ its.filter (fun it => ! it.isUnknown), wfItem it :=
    fun it hit => hwf it (List.mem_of_mem_filter hit)
  have hlen2 : 4 + ((its.filter (fun it => ! it.isUnknown)).map serializeItem).flatten.length
      < 2 ^ 32 := by
    have := serialize_filter_le its (fun it => ! it.isUnknown)
    omega
  rw [readChaptersFromWavFile_serialize rate nframes its hwf hlen,
    readChaptersFromWavFile_serialize rate nframes _ hwf2 hlen2,
    processItems_filter_unknown]

theorem unknown_chunk_invariance_witness :
    ((∀ it ∈ [WavItem.unknown (strBytes (r"junk")) 3 [9, 9, 9, 0],
        WavItem.cue [(1, 100)], WavItem.unknown (strBytes (r"fmt ")) 2 [7, 7],
        WavItem.listHdr, WavItem.labl 1 (strBytes (r"A"))], wfItem it)
      ∧ 4 + (([WavItem.unknown (strBytes (r"junk")) 3 [9, 9, 9, 0],
          WavItem.cue [(1, 100)], WavItem.unknown (strBytes (r"fmt ")) 2 [7, 7],
          WavItem.listHdr, WavItem.labl 1 (strBytes (r"A"))].map serializeItem)).flatten.length
          < 2 ^ 32)
    ∧ readChaptersFromWavFile 44100 44100
        (serializeWav [WavItem.unknown (strBytes (r"junk")) 3 [9, 9, 9, 0],
          WavItem.cue [(1, 100)], WavItem.unknown (strBytes (r"fmt ")) 2 [7, 7],
          WavItem.listHdr, WavItem.labl 1 (strBytes (r"A"))])
      = readChaptersFromWavFile 44100 44100
          (serializeWav ([WavItem.unknown (strBytes (r"junk")) 3 [9, 9, 9, 0],
            WavItem.cue [(1, 100)], WavItem.unknown (strBytes (r"fmt ")) 2 [7, 7],
            WavItem.listHdr, WavItem.labl 1 (strBytes (r"A"))].filter
              (fun it => ! it.isUnknown))) :=
  ⟨⟨by decide, by decide⟩,
    unknown_chunk_invariance 44100 44100 _ (by decide) (by decide)⟩

/-! ### Truncated and oversized streams (claim C7) -/

theorem walkLoop_truncated (rate fsize fuel : Nat) (data : List Nat) (pos : Nat) (m : Markers)
    (h1 : pos < fsize) (h2 : data.length ≤ pos + 3) :
    walkLoop rate fsize (fuel + 1) ⟨data, pos⟩ m = .error .structError := by
  have hchunk : ((data.drop pos).take 4).length ≤ 3 := by
    rw [List.length_take, List.length_drop]
    omega
  have hne : ∀ b : List Nat, b.length = 4 → (data.drop pos).take 4 ≠ b := by
    intro b hb hx
    rw [hx, hb] at hchunk
    omega
  have hpast : data.length ≤ pos + ((data.drop pos).take 4).length := by
    rw [List.length_take, List.length_drop]
    omega
  have hnil : data.drop (pos + ((data.drop pos).take 4).length) = [] :=
    List.drop_eq_nil_of_le hpast
  simp only [walkLoop, pyTell, if_pos h1, pyRead, if_neg (hne bCue rfl),
    if_neg (hne bLIST rfl), if_neg (hne bLabl rfl), skipUnknownChunk, hnil,
    List.take_nil, List.length_nil]
  rw [if_neg (by decide : ¬ ((0 : Nat) = 4))]

/-- A RIFF stream whose declared size runs past the actual bytes: the
magic, a size field, the form type, well-formed chunks, and then fewer
than four trailing bytes where the declared size promises more. -/
def serializeWavTruncated (sz : Nat) (its : List WavItem) (g : List Nat) : List Nat :=
  bRIFF ++ le4 sz ++ bWAVE ++ ((its.map serializeItem).flatten ++ g)

/-- Claim C7, amended: when the stream ends mid-header before the declared
container size, the walk fails with `struct.error` (the source has no
`FormatError`; `struct.unpack` raises `struct.error` on the short read).
An oversized declared chunk size, by contrast, does not fail — see the
counterexample theorem. -/
theorem truncated_header_struct_error (rate nframes sz : Nat) (its : List WavItem)
    (hwf : ∀ it ∈ its, wfItem it) (g : List Nat) (hg : g.length ≤ 3)
    (hsz : 12 + (its.map serializeItem).flatten.length + g.length < sz % 2 ^ 32 + 8) :
    readChaptersFromWavFile rate nframes (serializeWavTruncated sz its g)
      = .error .structError := by
  set B := (its.map serializeItem).flatten.length with hB
  set data := serializeWavTruncated sz its g with hdata0
  have hdata : data = bRIFF ++ (le4 sz ++ (bWAVE ++ ((its.map serializeItem).flatten ++ g))) := by
    rw [hdata0]
    simp [serializeWavTruncated, List.append_assoc]
  have hdlen : data.length = 12 + B + g.length := by
    rw [hdata]
    simp only [List.length_append, le4_length]
    have hr : bRIFF.length = 4 := rfl
    have hw : bWAVE.length = 4 := rfl
    rw [hB]
    omega
  have hread1 : pyRead ⟨data, 0⟩ 4 = (bRIFF, ⟨data, 0 + 4⟩) :=
    pyRead_exact _ 0 4 bRIFF _ rfl (by rw [List.drop_zero, hdata])
  have h2 : data.drop (0 + 4) = le4 sz ++ (bWAVE ++ ((its.map serializeItem).flatten ++ g)) :=
    drop_shift _ 0 4 bRIFF _ rfl (by rw [List.drop_zero, hdata])
  have hread2 := pyRead_exact data (0 + 4) 4 (le4 sz) _ (le4_length _) h2
  have h3 : data.drop (0 + 4 + 4) = bWAVE ++ ((its.map serializeItem).flatten ++ g) :=
    drop_shift _ (0 + 4) 4 (le4 sz) _ (le4_length _) h2
  have hread3 := pyRead_exact data (0 + 4 + 4) 4 bWAVE _ rfl h3
  have h4 : data.drop (0 + 4 + 4 + 4) = (its.map serializeItem).flatten ++ g :=
    drop_shift _ (0 + 4 + 4) 4 bWAVE _ rfl h3
  have hitems := serializeItems_length_ge its
  have hfuel : data.length + 1 = ((13 + B + g.length - its.length) + its.length) := by
    rw [hdlen]
    omega
  have hwalk := walkLoop_serialize rate (leNat (le4 sz) + 8) its hwf
    (13 + B + g.length - its.length) 12 data g [] (by simpa using h4)
    (by rw [leNat_le4]; omega)
  have hk : 13 + B + g.length - its.length = (12 + B + g.length - its.length) + 1 := by omega
  have htrunc := walkLoop_truncated rate (leNat (le4 sz) + 8)
    (12 + B + g.length - its.length) data (12 + B) (processItems rate its [])
    (by rw [leNat_le4]; omega) (by omega)
  unfold readChaptersFromWavFile
  simp only [readRiffChunk, hread1, if_pos rfl, hread2, le4_length, if_pos, hread3]
  rw [hfuel, hwalk, hk, htrunc]

/-- The stream of the C7 counterexample: a proper RIFF/WAVE header
declaring 24 total bytes, then a `junk` chunk declaring a 100-byte
payload, which would read far past both the declared total and the actual
end of the 20-byte stream. -/
def oversizeSkipStream : List Nat := bRIFF ++ le4 16 ++ bWAVE ++ (strBytes (r"junk") ++ le4 100)

/-- Claim C7 as stated is false on the oversize half: a declared chunk
size that would read past the container's declared total size raises
nothing — `fid.seek` moves past the end, `fid.tell() < fsize` turns
false, and the collected (empty) chapter list is returned as success. -/
theorem truncated_header_struct_error_counterexample :
    readChaptersFromWavFile 44100 1000 oversizeSkipStream = .ok [] := rfl

theorem truncated_header_struct_error_witness :
    ((∀ it ∈ ([] : List WavItem), wfItem it) ∧ ([(0 : Nat)] : List Nat).length ≤ 3
      ∧ 12 + (([] : List WavItem).map serializeItem).flatten.length + [(0 : Nat)].length
          < 10 % 2 ^ 32 + 8)
    ∧ readChaptersFromWavFile 44100 1000 (serializeWavTruncated 10 [] [0])
        = .error .structError :=
  ⟨⟨by decide, by decide, by decide⟩,
    truncated_header_struct_error 44100 1000 10 [] (by decide) [0] (by decide) (by decide)⟩

/-! ### The ID3 round trip (claim C2) -/

theorem chpId_data (i : Nat) : (chpId i).data = 'c' :: 'h' :: 'p' :: (natToStr i).data := by
  unfold chpId chpPrefix
  cases natToStr i with
  | mk l => rfl

theorem chpId_inj (a b : Nat) (h : chpId a = chpId b) : a = b := by
  have hd := congrArg String.data h
  rw [chpId_data, chpId_data] at hd
  simp only [List.cons.injEq, true_and] at hd
  exact natToStr_injective a b (congrArg String.mk hd)

/-- Looking up `chp{j}` among frames numbered from `k > j` finds nothing. -/
theorem chapLookup_frames_none (full : List Chapter) :
    ∀ (k j : Nat), j < k →
      chapLookup (chapFramesFrom k full) (chpId j) = none := by
  induction full with
  | nil => intro k j _; rfl
  | cons c rest ih =>
    intro k j hjk
    simp only [chapFramesFrom, chapLookup]
    rw [ih (k + 1) j (by omega)]
    have hne : chpId k ≠ chpId j := fun h => by have := chpId_inj k j h; omega
    simp only [if_neg hne]

/-- Looking up `chp{j}` among the frames for chapters `full` numbered from
`k` finds exactly the frame of chapter `j - k`. -/
theorem chapLookup_frames (full : List Chapter) :
    ∀ (k j : Nat), k ≤ j → (hj : j - k < full.length) →
      chapLookup (chapFramesFrom k full) (chpId j)
        = some ⟨chpId j, (full.get ⟨j - k, hj⟩).start, (full.get ⟨j - k, hj⟩).stop,
            some (textOf (full.get ⟨j - k, hj⟩).name)⟩ := by
  induction full with
  | nil => intro k j _ hj; simp at hj
  | cons c rest ih =>
    intro k j hk hj
    simp only [chapFramesFrom, chapLookup]
    by_cases hjk : j = k
    · subst hjk
      rw [chapLookup_frames_none rest (j + 1) j (by omega)]
      simp [Nat.sub_self]
    · have hklt : k + 1 ≤ j := by omega
      have hj2 : j - (k + 1) < rest.length := by
        simp only [List.length_cons] at hj
        omega
      rw [ih (k + 1) j hklt hj2]
      have hidx : j - k = (j - (k + 1)) + 1 := by omega
      simp only [hidx, List.get_cons_succ]

/-- Resolving the child ids `chp{k}, chp{k+1}, ...` against the frames of
`full` rebuilds the chapters of the corresponding slice, with each name
wrapped in the mutagen text list. -/
theorem lookupChapters_toc (full : List Chapter) :
    ∀ (sub : List Chapter) (k : Nat),
      (∀ i, i < sub.length → full[k + i]? = sub[i]?) →
      lookupChapters (chapFramesFrom 0 full) (tocIdsFrom k sub.length)
        = .ok (sub.map (fun c => Chapter.mk c.start c.stop (.strList (textOf c.name)))) := by
  intro sub
  induction sub with
  | nil => intro k _; rfl
  | cons c rest ih =>
    intro k hsub
    have h0 : full[k + 0]? = some c := by
      rw [hsub 0 (by simp)]
      simp
    rw [Nat.add_zero] at h0
    have hk : k < full.length := by
      by_contra hc
      rw [List.getElem?_eq_none (by omega)] at h0
      exact Option.noConfusion h0
    have hget : full.get ⟨k, hk⟩ = c := by
      have := List.getElem?_eq_getElem hk
      rw [this] at h0
      exact Option.some.injEq _ _ ▸ (by simpa using h0)
    have hlookup := chapLookup_frames full 0 k (Nat.zero_le k) (by simpa using hk)
    have hrest := ih (k + 1) (fun i hi => by
      have := hsub (i + 1) (by simpa using Nat.succ_lt_succ hi)
      rw [show k + (i + 1) = k + 1 + i by omega] at this
      simpa using this)
    simp only [List.length_cons, tocIdsFrom, lookupChapters, hlookup, hrest]
    simp only [Nat.sub_zero] at hlookup ⊢
    rw [show (full.get ⟨k, by simpa using hk⟩) = c from hget]
    rfl

theorem string_length_ne_zero (s : String) (h : s ≠ "") : s.length ≠ 0 := by
  intro h0
  apply h
  have hd : s.data = [] := by
    have : s.data.length = 0 := h0
    exact List.length_eq_zero.mp this
  exact congrArg String.mk hd

/-- Claim C2, amended: the encode/decode round trip restores `m` exactly
when every present title is non-empty (Python truthiness drops empty
strings), the episode number is not zero (truthiness again), and the
chapters field is a present list whose chapter names are already
list-valued (mutagen text attributes are lists of strings, so a plain
string name comes back wrapped; decode always returns a list, never an
absent chapters field). -/
theorem metadata_roundtrip (m : MetaData)
    (h1 : ∀ s, m.podcast_title = some s → s ≠ "")
    (h2 : ∀ s, m.episode_title = some s → s ≠ "")
    (h3 : ∀ n, m.episode_number = some n → n ≠ 0)
    (h4 : ∃ l, m.chapters = some l ∧ ∀ c ∈ l, ∃ ls, c.name = PyStr.strList ls) :
    decodeMetaData (getTags m) = .ok m := by
  obtain ⟨pt, et, en, ch⟩ := m
  obtain ⟨l, hch, hnames⟩ := h4
  simp only at hch
  subst hch
  have hpt : getPodcastNameFromId3Tags (getTags ⟨pt, et, en, some l⟩) = pt := by
    cases pt with
    | none => rfl
    | some s =>
      have hs := string_length_ne_zero s (h1 s rfl)
      simp [getTags, getPodcastNameFromId3Tags, hs]
  have het : getEpisodeTitleFromId3Tags (getTags ⟨pt, et, en, some l⟩) = et := by
    cases et with
    | none => rfl
    | some s =>
      have hs := string_length_ne_zero s (h2 s rfl)
      simp [getTags, getEpisodeTitleFromId3Tags, hs]
  have hen : getEpisodeNumberFromId3Tags (getTags ⟨pt, et, en, some l⟩) = .ok en := by
    cases en with
    | none => rfl
    | some n =>
      have hn := h3 n rfl
      simp [getTags, getEpisodeNumberFromId3Tags, hn, pyIntParse_intToStr]
  have hchaps : getChaptersFromId3Tags (getTags ⟨pt, et, en, some l⟩) = .ok l := by
    cases l with
    | nil => rfl
    | cons c0 r0 =>
      have hlen : (c0 :: r0).length ≠ 0 := by simp
      have hlook := lookupChapters_toc (c0 :: r0) (c0 :: r0) 0 (fun i _ => by simp)
      have hmap : (c0 :: r0).map
          (fun c => Chapter.mk c.start c.stop (.strList (textOf c.name))) = c0 :: r0 := by
        rw [List.map_congr_left (g := id) ?_, List.map_id]
        intro c hc
        obtain ⟨ls, hls⟩ := hnames c hc
        cases c with
        | mk s e nm =>
          simp only at hls
          subst hls
          rfl
      simp only [getTags, getChaptersFromId3Tags, if_pos hlen, hlook, hmap]
  simp only [decodeMetaData, hen, hchaps, hpt, het]

/-- Claim C2 as stated is false: for `m` with every field absent, the
decoded metadata has `chapters = []` (a present empty list) where `m` has
an absent chapters field, so `decode(encode(m)) != m`. -/
theorem metadata_roundtrip_counterexample :
    decodeMetaData (getTags ⟨none, none, none, none⟩)
        = .ok ⟨none, none, none, some []⟩
    ∧ (⟨none, none, none, some []⟩ : MetaData) ≠ (⟨none, none, none, none⟩ : MetaData) :=
  ⟨rfl, by decide⟩

theorem metadata_roundtrip_witness :
    ((∀ s : String, ((⟨some (r"A"), some (r"B"), some 3,
          some [Chapter.mk 0 5 (.strList [r"X"])]⟩ : MetaData)).podcast_title = some s → s ≠ "")
      ∧ (∀ s : String, ((⟨some (r"A"), some (r"B"), some 3,
          some [Chapter.mk 0 5 (.strList [r"X"])]⟩ : MetaData)).episode_title = some s → s ≠ "")
      ∧ (∀ n : Int, ((⟨some (r"A"), some (r"B"), some 3,
          some [Chapter.mk 0 5 (.strList [r"X"])]⟩ : MetaData)).episode_number = some n → n ≠ 0)
      ∧ (∃ l, ((⟨some (r"A"), some (r"B"), some 3,
          some [Chapter.mk 0 5 (.strList [r"X"])]⟩ : MetaData)).chapters = some l
          ∧ ∀ c ∈ l, ∃ ls, c.name = PyStr.strList ls))
    ∧ decodeMetaData (getTags ⟨some (r"A"), some (r"B"), some 3,
        some [Chapter.mk 0 5 (.strList [r"X"])]⟩)
      = .ok ⟨some (r"A"), some (r"B"), some 3, some [Chapter.mk 0 5 (.strList [r"X"])]⟩ := by
  have h1 : ∀ s : String, (some (r"A") : Option String) = some s → s ≠ "" := by
    intro s hs
    cases hs
    decide
  have h2 : ∀ s : String, (some (r"B") : Option String) = some s → s ≠ "" := by
    intro s hs
    cases hs
    decide
  have h3 : ∀ n : Int, (some 3 : Option Int) = some n → n ≠ 0 := by
    intro n hn
    cases hn
    decide
  have h4 : ∃ l, (some [Chapter.mk 0 5 (.strList [r"X"])] : Option (List Chapter)) = some l
      ∧ ∀ c ∈ l, ∃ ls, c.name = PyStr.strList ls := by
    refine ⟨[Chapter.mk 0 5 (.strList [r"X"])], rfl, ?_⟩
    intro c hc
    have : c = Chapter.mk 0 5 (.strList [r"X"]) := by simpa using hc
    subst this
    exact ⟨[r"X"], rfl⟩
  exact ⟨⟨h1, h2, h3, h4⟩,
    metadata_roundtrip ⟨some (r"A"), some (r"B"), some 3,
      some [Chapter.mk 0 5 (.strList [r"X"])]⟩ h1 h2 h3 h4⟩

/-! ### Missing CHAP frames (claim C5) -/

theorem chapLookup_eq_none (chaps : List CHAPFrame) (id : String)
    (h : ∀ f ∈ chaps, f.element_id ≠ id) : chapLookup chaps id = none := by
  induction chaps with
  | nil => rfl
  | cons c rest ih =>
    simp only [chapLookup, ih (fun f hf => h f (List.mem_cons_of_mem c hf))]
    rw [if_neg (h c (List.mem_cons_self c rest))]

theorem lookupChapters_missing (chaps : List CHAPFrame) :
    ∀ ids : List String, (∃ id ∈ ids, chapLookup chaps id = none) →
      ∃ k, lookupChapters chaps ids = .error (.keyError k) := by
  intro ids
  induction ids with
  | nil =>
    intro h
    obtain ⟨id, hid, _⟩ := h
    exact absurd hid (List.not_mem_nil id)
  | cons id rest ih =>
    intro h
    obtain ⟨id0, hid0, hnone⟩ := h
    cases hc : chapLookup chaps id with
    | none =>
      refine ⟨id, ?_⟩
      simp only [lookupChapters, hc]
    | some f =>
      have hr : ∃ x ∈ rest, chapLookup chaps x = none := by
        rcases List.mem_cons.mp hid0 with he | hm
        · subst he
          rw [hc] at hnone
          exact absurd hnone (by simp)
        · exact ⟨id0, hm, hnone⟩
      obtain ⟨k, hk⟩ := ih hr
      refine ⟨k, ?_⟩
      simp only [lookupChapters, hc, hk]

/-- Claim C5: a `CTOC` child element id with no matching `CHAP` frame
makes the chapter decode fail with a raised `KeyError` (the failure the
spec's error taxonomy files under `FormatError`); the decode never
silently drops the missing chapter and returns a shorter list. -/
theorem missing_chap_fails (t : ID3Tags) (c : CTOCFrame) (rest : List CTOCFrame)
    (hctoc : t.ctoc = c :: rest) (id : String) (hid : id ∈ c.child_element_ids)
    (hmiss : ∀ f ∈ t.chap, f.element_id ≠ id) :
    ∃ k, getChaptersFromId3Tags t = .error (.keyError k) := by
  unfold getChaptersFromId3Tags
  rw [hctoc]
  exact lookupChapters_missing t.chap c.child_element_ids
    ⟨id, hid, chapLookup_eq_none t.chap id hmiss⟩

theorem missing_chap_fails_witness :
    (((⟨none, none, none, [⟨tocId, [chpId 0]⟩], []⟩ : ID3Tags)).ctoc
        = (⟨tocId, [chpId 0]⟩ : CTOCFrame) :: []
      ∧ chpId 0 ∈ (⟨tocId, [chpId 0]⟩ : CTOCFrame).child_element_ids
      ∧ (∀ f ∈ ((⟨none, none, none, [⟨tocId, [chpId 0]⟩], []⟩ : ID3Tags)).chap,
          f.element_id ≠ chpId 0))
    ∧ ∃ k, getChaptersFromId3Tags ⟨none, none, none, [⟨tocId, [chpId 0]⟩], []⟩
        = .error (.keyError k) := by
  have hctoc : ((⟨none, none, none, [⟨tocId, [chpId 0]⟩], []⟩ : ID3Tags)).ctoc
      = (⟨tocId, [chpId 0]⟩ : CTOCFrame) :: [] := rfl
  have hid : chpId 0 ∈ (⟨tocId, [chpId 0]⟩ : CTOCFrame).child_element_ids :=
    List.mem_cons_self _ _
  have hmiss : ∀ f ∈ ((⟨none, none, none, [⟨tocId, [chpId 0]⟩], []⟩ : ID3Tags)).chap,
      f.element_id ≠ chpId 0 := by
    intro f hf
    exact absurd hf (List.not_mem_nil f)
  exact ⟨⟨hctoc, hid, hmiss⟩,
    missing_chap_fails _ _ _ hctoc (chpId 0) hid hmiss⟩

/-! ### Unparsable TRCK frames (claim C8) -/

/-- Claim C8, amended: a `TRCK` frame whose text does not parse as an
integer makes the WHOLE metadata decode fail with `ValueError` — the
source calls `int(trck_tag.text[0])` unguarded; only an absent frame or an
empty text list yields an absent episode number. -/
theorem trck_parse_failure_fails_decode (t : ID3Tags) (s : String) (rest : List String)
    (htrck : t.trck = some (s :: rest)) (hbad : pyIntParse s = none) :
    decodeMetaData t = .error .valueError := by
  unfold decodeMetaData getEpisodeNumberFromId3Tags
  rw [htrck]
  dsimp only
  rw [hbad]

/-- Claim C8 as stated is false: with `TRCK` text `"abc"`, the decode does
not succeed with an absent episode number — it raises `ValueError`. -/
theorem trck_parse_failure_counterexample :
    decodeMetaData ⟨none, none, some [(r"abc")], [], []⟩ = .error .valueError
    ∧ ∀ md : MetaData, decodeMetaData ⟨none, none, some [(r"abc")], [], []⟩ ≠ .ok md := by
  refine ⟨rfl, ?_⟩
  intro md h
  rw [show decodeMetaData ⟨none, none, some [(r"abc")], [], []⟩
      = .error .valueError from rfl] at h
  exact Except.noConfusion h

theorem trck_parse_failure_witness :
    (((⟨none, none, some [(r"abc")], [], []⟩ : ID3Tags)).trck = some ((r"abc") :: [])
      ∧ pyIntParse (r"abc") = none)
    ∧ decodeMetaData ⟨none, none, some [(r"abc")], [], []⟩ = .error .valueError :=
  ⟨⟨rfl, rfl⟩,
    trck_parse_failure_fails_decode ⟨none, none, some [(r"abc")], [], []⟩ (r"abc") [] rfl rfl⟩

/-! ### Output assembly of the parallel encoder (claims C3 and C4) -/

theorem applyCompletions_length (ps : List ProcessBehavior) (order : List Nat) :
    ∀ bufs : List (List Nat), (applyCompletions ps order bufs).length = bufs.length := by
  induction order with
  | nil => intro bufs; rfl
  | cons j rest ih =>
    intro bufs
    simp only [applyCompletions, List.foldl_cons] at ih ⊢
    rw [ih (bufs.set j _), List.length_set]

theorem applyCompletions_getElem (ps : List ProcessBehavior) (order : List Nat) :
    ∀ (bufs : List (List Nat)) (i : Nat), i < bufs.length →
      (applyCompletions ps order bufs)[i]?
        = if i ∈ order then some (encodeChunkBuffer (ps.getD i ⟨[], 0⟩)) else bufs[i]? := by
  induction order with
  | nil =>
    intro bufs i _
    simp [applyCompletions]
  | cons j rest ih =>
    intro bufs i hi
    have hstep : applyCompletions ps (j :: rest) bufs
        = applyCompletions ps rest (bufs.set j (encodeChunkBuffer (ps.getD j ⟨[], 0⟩))) := rfl
    rw [hstep, ih _ i (by rw [List.length_set]; exact hi)]
    by_cases hmem : i ∈ rest
    · rw [if_pos hmem, if_pos (List.mem_cons_of_mem j hmem)]
    · rw [if_neg hmem]
      by_cases hij : i = j
      · subst hij
        rw [if_pos (List.mem_cons_self i rest), List.getElem?_set_eq_of_lt _ hi]
      · rw [List.getElem?_set_ne (fun h => hij h.symm)]
        rw [if_neg (by
          intro hmem2
          rcases List.mem_cons.mp hmem2 with he | hm
          · exact hij he
          · exact hmem hm)]

/-- The assembled stream is the flattening of the per-worker outputs in
index order whenever every worker index appears in the completion order —
independently of that order. -/
theorem lameEncode_eq_flatten (ps : List ProcessBehavior) (order : List Nat)
    (hall : ∀ i, i < ps.length → i ∈ order) :
    lameEncode ps order = (ps.map (fun p => p.output)).flatten := by
  unfold lameEncode
  have hbufs : applyCompletions ps order (List.replicate ps.length [])
      = ps.map (fun p => p.output) := by
    apply List.ext_getElem?
    intro i
    by_cases hi : i < ps.length
    · rw [applyCompletions_getElem ps order _ i (by rw [List.length_replicate]; exact hi),
        if_pos (hall i hi), List.getElem?_map, List.getElem?_eq_getElem hi]
      unfold encodeChunkBuffer
      rw [List.getD_eq_getElem?_getD, List.getElem?_eq_getElem hi]
      rfl
    · rw [List.getElem?_eq_none, List.getElem?_eq_none]
      · rw [List.length_map]; omega
      · rw [applyCompletions_length, List.length_replicate]; omega
  rw [hbufs]

/-- Claim C4: the final encoded byte stream is the concatenation of the
per-worker output buffers in ascending chunk-index order, for every
completion order of the workers. -/
theorem encode_concat_in_index_order (ps : List ProcessBehavior) (order : List Nat)
    (hall : ∀ i, i < ps.length → i ∈ order) :
    lameEncode ps order = (ps.map (fun p => p.output)).flatten :=
  lameEncode_eq_flatten ps order hall

theorem encode_concat_in_index_order_witness :
    (∀ i, i < ([⟨[1, 2], 0⟩, ⟨[3, 4], 0⟩] : List ProcessBehavior).length → i ∈ [1, 0])
    ∧ lameEncode [⟨[1, 2], 0⟩, ⟨[3, 4], 0⟩] [1, 0]
        = (([⟨[1, 2], 0⟩, ⟨[3, 4], 0⟩] : List ProcessBehavior).map (fun p => p.output)).flatten :=
  ⟨by decide, encode_concat_in_index_order [⟨[1, 2], 0⟩, ⟨[3, 4], 0⟩] [1, 0] (by decide)⟩

/-- Claim C3, amended: a worker process exiting non-zero changes nothing —
`encode_chunk` never reads the exit code or stderr, no sibling is
cancelled, no `EncoderProcessError` exists in the source, and `encode`
returns the concatenation of ALL the output buffers (the failing worker's
possibly partial bytes included) as an ordinary success. -/
theorem encoder_failure_ignored (ps : List ProcessBehavior) (order : List Nat)
    (hall : ∀ i, i < ps.length → i ∈ order)
    (hfail : ∃ p ∈ ps, p.exitCode ≠ 0) :
    lameEncode ps order = (ps.map (fun p => p.output)).flatten :=
  lameEncode_eq_flatten ps order hall

/-- Claim C3 as stated is false: with worker 0's process exiting with
code 1 after emitting two bytes, the encode completes successfully and its
result contains that partial buffer. -/
theorem encoder_failure_counterexample :
    (⟨[1, 2], 1⟩ : ProcessBehavior).exitCode ≠ 0
    ∧ lameEncode [⟨[1, 2], 1⟩, ⟨[3, 4], 0⟩] [1, 0] = [1, 2] ++ [3, 4] :=
  ⟨by decide, by decide⟩

theorem encoder_failure_ignored_witness :
    ((∀ i, i < ([⟨[1, 2], 1⟩, ⟨[3, 4], 0⟩] : List ProcessBehavior).length → i ∈ [0, 1])
      ∧ (∃ p ∈ ([⟨[1, 2], 1⟩, ⟨[3, 4], 0⟩] : List ProcessBehavior), p.exitCode ≠ 0))
    ∧ lameEncode [⟨[1, 2], 1⟩, ⟨[3, 4], 0⟩] [0, 1]
        = (([⟨[1, 2], 1⟩, ⟨[3, 4], 0⟩] : List ProcessBehavior).map (fun p => p.output)).flatten :=
  ⟨⟨by decide, ⟨⟨[1, 2], 1⟩, by decide, by decide⟩⟩,
    encoder_failure_ignored [⟨[1, 2], 1⟩, ⟨[3, 4], 0⟩] [0, 1] (by decide)
      ⟨⟨[1, 2], 1⟩, by decide, by decide⟩⟩

/-! ### The feed loop (claim C10) -/

/-- Claim C10: the pair formula for `update_samples_to_read` is exactly as
claimed — but the consequence about the feed loop is false in the source:
the loop writes the current batch only when `samples_left` is still
positive, so the final pre-computed batch is never written. A worker
assigned 1024 samples feeds none of them, and one assigned 3000 feeds only
2048. -/
theorem update_samples_to_read_spec :
    (∀ samplesLeft chunkSize : Nat,
        updateSamplesToRead samplesLeft chunkSize
          = (min samplesLeft chunkSize, samplesLeft - min samplesLeft chunkSize))
    ∧ samplesFed 1024 = 0
    ∧ samplesFed 3000 = 2048
    ∧ samplesFed 0 = 0 := by
  refine ⟨?_, by decide, by decide, by decide⟩
  intro l c
  unfold updateSamplesToRead
  by_cases h : l > c
  · rw [if_pos h]
    have h1 : min l c = c := by omega
    rw [h1]
  · rw [if_neg h]
    have h1 : min l c = l := by omega
    rw [h1, Nat.sub_self]

/-! ### Filename guessing (claim C9) -/

theorem dropWhile_append_all {α : Type} (p : α → Bool) (l1 l2 : List α)
    (h : ∀ c ∈ l1, p c = true) : (l1 ++ l2).dropWhile p = l2.dropWhile p := by
  induction l1 with
  | nil => rfl
  | cons c cs ih =>
    simp only [List.cons_append, List.dropWhile_cons, h c (List.mem_cons_self c cs), if_pos]
    exact ih (fun x hx => h x (List.mem_cons_of_mem c hx))

theorem dropWhile_head_not {α : Type} (p : α → Bool) (l : List α)
    (h : ∀ c, l.head? = some c → p c = false) : l.dropWhile p = l := by
  cases l with
  | nil => rfl
  | cons c cs => simp [List.dropWhile_cons, h c rfl]

theorem takeWhile_all {α : Type} (p : α → Bool) (l : List α) (h : ∀ c ∈ l, p c = true) :
    l.takeWhile p = l := by
  induction l with
  | nil => rfl
  | cons c cs ih =>
    simp only [List.takeWhile_cons, h c (List.mem_cons_self c cs), if_pos]
    rw [ih (fun x hx => h x (List.mem_cons_of_mem c hx))]

theorem tryMatchK_match (dstr s1 s2 t : List Char) (k : Nat)
    (hk : dstr.length = k) (hdig : ∀ c ∈ dstr, c.isDigit = true)
    (hs1 : ∀ c ∈ s1, c = ' ') (hs2 : ∀ c ∈ s2, c = ' ')
    (ht1 : ∀ c, t.head? = some c → c ≠ ' ') (ht2 : '\n' ∉ t) :
    tryMatchK (dstr ++ (s1 ++ ('-' :: (s2 ++ t)))) k = some (dstr, t) := by
  unfold tryMatchK
  have htake : (dstr ++ (s1 ++ ('-' :: (s2 ++ t)))).take k = dstr := by
    rw [← hk, List.take_left]
  have hdrop : (dstr ++ (s1 ++ ('-' :: (s2 ++ t)))).drop k = s1 ++ ('-' :: (s2 ++ t)) := by
    rw [← hk, List.drop_left]
  rw [htake, hdrop, if_pos ⟨hk, List.all_eq_true.mpr hdig⟩]
  have hd1 : (s1 ++ ('-' :: (s2 ++ t))).dropWhile (fun c => c = ' ') = '-' :: (s2 ++ t) := by
    rw [dropWhile_append_all _ s1 _ (fun c hc => by simp [hs1 c hc])]
    exact dropWhile_head_not _ _ (fun c hc => by
      have : c = '-' := by simpa using hc.symm
      subst this
      decide)
  rw [hd1]
  have hd2 : (s2 ++ t).dropWhile (fun c => c = ' ') = t := by
    rw [dropWhile_append_all _ s2 _ (fun c hc => by simp [hs2 c hc])]
    exact dropWhile_head_not _ _ (fun c hc => by
      have := ht1 c hc
      simpa using this)
  have ht : t.takeWhile (fun c => c ≠ '\n') = t := by
    refine takeWhile_all _ t (fun c hc => ?_)
    have : c ≠ '\n' := fun hx => ht2 (hx ▸ hc)
    simpa using this
  simp only [hd2, ht]

theorem tryMatchK_too_long (dstr s1 s2 t : List Char) (k : Nat)
    (hk : dstr.length < k) (hs1 : ∀ c ∈ s1, c = ' ') :
    tryMatchK (dstr ++ (s1 ++ ('-' :: (s2 ++ t)))) k = none := by
  unfold tryMatchK
  obtain ⟨x, xs, hx, hxd⟩ : ∃ x xs, s1 ++ ('-' :: (s2 ++ t)) = x :: xs ∧ x.isDigit = false := by
    cases s1 with
    | nil => exact ⟨'-', s2 ++ t, rfl, by decide⟩
    | cons c cs =>
      have hc := hs1 c (List.mem_cons_self c cs)
      subst hc
      exact ⟨' ', cs ++ ('-' :: (s2 ++ t)), rfl, by decide⟩
  rw [hx]
  obtain ⟨m, hm⟩ : ∃ m, k - dstr.length = m + 1 := ⟨k - dstr.length - 1, by omega⟩
  have htake : (dstr ++ (x :: xs)).take k = dstr ++ (x :: (xs.take m)) := by
    rw [List.take_append_eq_append_take, List.take_of_length_le (by omega), hm]
    rfl
  rw [htake]
  refine if_neg ?_
  intro hcl
  have hmem : x ∈ dstr ++ (x :: xs.take m) :=
    List.mem_append_right dstr (List.mem_cons_self x _)
  have := List.all_eq_true.mp hcl.2 x hmem
  rw [hxd] at this
  exact Bool.noConfusion this

theorem matchAt_match (dstr s1 s2 t : List Char)
    (hd1 : dstr ≠ []) (hd3 : dstr.length ≤ 3)
    (hdig : ∀ c ∈ dstr, c.isDigit = true)
    (hs1 : ∀ c ∈ s1, c = ' ') (hs2 : ∀ c ∈ s2, c = ' ')
    (ht1 : ∀ c, t.head? = some c → c ≠ ' ') (ht2 : '\n' ∉ t) :
    matchAt (dstr ++ (s1 ++ ('-' :: (s2 ++ t)))) = some (dstr, t) := by
  unfold matchAt
  by_cases h3 : dstr.length = 3
  · rw [tryMatchK_match dstr s1 s2 t 3 h3 hdig hs1 hs2 ht1 ht2]
  · by_cases h2 : dstr.length = 2
    · rw [tryMatchK_too_long dstr s1 s2 t 3 (by omega) hs1,
        tryMatchK_match dstr s1 s2 t 2 h2 hdig hs1 hs2 ht1 ht2]
    · have h1 : dstr.length = 1 := by
        have : dstr.length ≠ 0 := fun hx => hd1 (List.length_eq_zero.mp hx)
        omega
      rw [tryMatchK_too_long dstr s1 s2 t 3 (by omega) hs1,
        tryMatchK_too_long dstr s1 s2 t 2 (by omega) hs1,
        tryMatchK_match dstr s1 s2 t 1 h1 hdig hs1 hs2 ht1 ht2]

theorem reSearch_match (dstr s1 s2 t : List Char)
    (hd1 : dstr ≠ []) (hd3 : dstr.length ≤ 3)
    (hdig : ∀ c ∈ dstr, c.isDigit = true)
    (hs1 : ∀ c ∈ s1, c = ' ') (hs2 : ∀ c ∈ s2, c = ' ')
    (ht1 : ∀ c, t.head? = some c → c ≠ ' ') (ht2 : '\n' ∉ t) :
    reSearch (dstr ++ (s1 ++ ('-' :: (s2 ++ t)))) = some (dstr, t) := by
  cases dstr with
  | nil => exact absurd rfl hd1
  | cons d0 drest =>
    have hm := matchAt_match (d0 :: drest) s1 s2 t hd1 hd3 hdig hs1 hs2 ht1 ht2
    rw [List.cons_append] at hm ⊢
    simp only [reSearch, hm]

/-- Claim C9, amended: the source applies `re.search` with the UNANCHORED
pattern `([0-9]{1,3}) *- *(.*)` (literal spaces, not `\s`) to the base
name without extension. When the base name starts with one to three
digits, then optional spaces, a hyphen, optional spaces, and a rest
without leading space or newline, the guess returns the parsed digit
group and that rest; when the pattern occurs nowhere in the base name,
both results are absent. (Unanchored: a match may also start mid-string —
see the counterexample against the spec's anchored pattern.) -/
theorem guess_podcast_info (path : String) (dstr s1 s2 t : List Char)
    (hbase : splitextBase (pyBasename path.toList) = dstr ++ (s1 ++ ('-' :: (s2 ++ t))))
    (hd1 : dstr ≠ []) (hd3 : dstr.length ≤ 3)
    (hdig : ∀ c ∈ dstr, c.isDigit = true)
    (hs1 : ∀ c ∈ s1, c = ' ') (hs2 : ∀ c ∈ s2, c = ' ')
    (ht1 : ∀ c, t.head? = some c → c ≠ ' ') (ht2 : '\n' ∉ t) :
    guessPodcastInfoFromFilename path = (pyIntParse (String.mk dstr), some (String.mk t)) := by
  unfold guessPodcastInfoFromFilename
  rw [hbase, reSearch_match dstr s1 s2 t hd1 hd3 hdig hs1 hs2 ht1 ht2]

/-- Modelled from the spec's words (the pattern the claim asserts):
`^\s*(\d{1,3})\s*-\s*(.*)$` applied anchored to the base name. The `\s`
class is `[ \t\n\r\v\f]`; `(.*)$` requires the rest of the string to hold
no newline (the trailing-newline special case of `$` is irrelevant to the
inputs evaluated here). -/
def isRegexSpace (c : Char) : Bool :=
  c = ' ' || c = '\t' || c = '\n' || c = '\x0d' || c = Char.ofNat 11 || c = Char.ofNat 12

/-- One anchored attempt with a digit group of width `k` (spec model). -/
def specTryK (cs : List Char) (k : Nat) : Option (List Char × List Char) :=
  let g1 := cs.take k
  if g1.length = k ∧ g1.all Char.isDigit then
    match (cs.drop k).dropWhile isRegexSpace with
    | '-' :: r2 =>
      let r3 := r2.dropWhile isRegexSpace
      if '\n' ∈ r3 then none else some (g1, r3)
    | _ => none
  else none

/-- The anchored match of the claim's regex (spec model). -/
def specAnchoredMatch (base : List Char) : Option (List Char × List Char) :=
  let b1 := base.dropWhile isRegexSpace
  match specTryK b1 3 with
  | some r => some r
  | none =>
    match specTryK b1 2 with
    | some r => some r
    | none => specTryK b1 1

/-- Claim C9 as stated is false: on base name `x1 - A` the anchored
pattern of the claim does not match (so the claim predicts both fields
absent), but the source's unanchored `re.search` finds `1 - A` mid-string
and returns `(1, "A")`. -/
theorem guess_podcast_info_counterexample :
    guessPodcastInfoFromFilename (r"x1 - A.wav") = (some 1, some (r"A"))
    ∧ specAnchoredMatch ((r"x1 - A").toList) = none :=
  ⟨by decide, by decide⟩

theorem guess_podcast_info_witness :
    (splitextBase (pyBasename (r"03 - Intro.wav").toList)
        = ['0', '3'] ++ ([' '] ++ ('-' :: ([' '] ++ ['I', 'n', 't', 'r', 'o'])))
    ∧ (['0', '3'] : List Char) ≠ []
    ∧ (['0', '3'] : List Char).length ≤ 3
    ∧ (∀ c ∈ (['0', '3'] : List Char), c.isDigit = true)
    ∧ '\n' ∉ (['I', 'n', 't', 'r', 'o'] : List Char))
    ∧ guessPodcastInfoFromFilename (r"03 - Intro.wav")
        = (pyIntParse (String.mk ['0', '3']), some (String.mk ['I', 'n', 't', 'r', 'o'])) :=
  ⟨⟨by decide, by decide, by decide, by decide, by decide⟩,
    guess_podcast_info (r"03 - Intro.wav") ['0', '3'] [' '] [' '] ['I', 'n', 't', 'r', 'o']
      (by decide) (by decide) (by decide) (by decide) (by decide) (by decide)
      (fun c hc => by
        have : c = 'I' := by simpa using hc.symm
        subst this
        decide)
      (by decide)⟩

end Chapters
